import Mathlib

/-!
A shallow embedding of `directree.go`.

The program walks a directory, filters out excluded names, sorts the remaining
entries (directories first, then by name) and renders them as a tree of text
lines.

Modelling choices.

* The file system below the root is a finite tree of `Node`s.  A `Node` plays
  both roles the source gives to a path: it is the `fs.DirEntry` its parent's
  listing holds (`Name`, `IsDir`) and it is the directory `os.ReadDir` is called
  on (`osReadDir`).  `filepath.Join path entry.Name()` is the child node itself.
* Go strings are Lean `String`s; Go's `<` on strings is Lean's `<` on `String`
  (lexicographic; on valid UTF-8 the byte-wise and the code-point order agree).
* `map[string]struct{}` is the list of its keys, written with `List.insert`,
  read with `∈`.
* Go `int` is `Int`.  `generateTree` adds one to `depth` without wrapping;
  `generateTreeInt64` makes the 64-bit wrap of `depth + 1` explicit, and the two
  agree unless max-depth is 9223372036854775807 and the recursion reaches that
  depth (`generateTreeInt64_eq_generateTree`), which no call from `main` does.
* `sort.Slice` is a library routine; it is modelled by an insertion sort driven
  by the same `less` function.
-/

namespace Directree

/-! ## Data model -/

/-- A file-system node: a non-directory entry, or a directory with the result
`os.ReadDir` gives for it (`readErr = true` when the call fails; the entries a
failed call returns are ignored by the program). -/
inductive Node where
  | file (name : String) : Node
  | dir (name : String) (readErr : Bool) (entries : List Node) : Node

namespace Node

/-- The method `fs.DirEntry.Name`. -/
def Name : Node → String
  | file name => name
  | dir name _ _ => name

/-- The method `fs.DirEntry.IsDir`. -/
def IsDir : Node → Bool
  | file _ => false
  | dir _ _ _ => true

end Node

/-- The call `os.ReadDir path`: `none` stands for a non-nil error. -/
def osReadDir : Node → Option (List Node)
  | .file _ => none
  | .dir _ readErr entries => if readErr then none else some entries

/-- The package-level variables of `directree.go` that the renderer reads. -/
structure Config where
  maxDepth : Int
  useColor : Bool
  excludeDirs : List String
  excludeFiles : List String
  excludeDirSet : List String
  excludeFileSet : List String

def colorBlue : String := "\x1b[0;34m"

def colorNone : String := "\x1b[0m"

def defaultDirs : List String :=
  [".git", "__pycache__", "node_modules", ".idea", ".vscode"]

def defaultFiles : List String := [".DS_Store", ".gitignore"]

/-- The variables as `setupFlags` leaves them: the four flag values, and the two
exclusion maps still empty (`make(map[string]struct{})`). -/
def setupFlags (maxDepth : Int) (useColor : Bool) (excludeDirs excludeFiles : List String) :
    Config :=
  { maxDepth := maxDepth, useColor := useColor, excludeDirs := excludeDirs,
    excludeFiles := excludeFiles, excludeDirSet := [], excludeFileSet := [] }

/-! ## Operations -/

/-- The function `initializeExclusions`: every default and every user-supplied
name is stored as a key of the matching map. -/
def initializeExclusions (c : Config) : Config :=
  { c with
    excludeDirSet :=
      (defaultDirs ++ c.excludeDirs).foldl (fun set d => set.insert d) c.excludeDirSet
    excludeFileSet :=
      (defaultFiles ++ c.excludeFiles).foldl (fun set f => set.insert f) c.excludeFileSet }

/-- The function `shouldExclude`. -/
def shouldExclude (c : Config) (entry : Node) : Bool :=
  if entry.IsDir then decide (entry.Name ∈ c.excludeDirSet)
  else decide (entry.Name ∈ c.excludeFileSet)

/-- The function `filterEntries`: the loop appends every entry it keeps. -/
def filterEntries (c : Config) (entries : List Node) : List Node :=
  entries.foldl
    (fun filtered entry =>
      if entry.Name = "." ∨ entry.Name = ".." then filtered
      else if shouldExclude c entry then filtered
      else filtered ++ [entry])
    []

/-- The less-function `sortEntries` hands to `sort.Slice`. -/
def entryLess (a b : Node) : Bool :=
  if a.IsDir && !b.IsDir then true
  else if !a.IsDir && b.IsDir then false
  else decide (a.Name < b.Name)

/-- Insertion of `x` in front of the first element it is less than. -/
def insertSorted {α : Type} (less : α → α → Bool) (x : α) : List α → List α
  | [] => [x]
  | y :: ys => if less x y then x :: y :: ys else y :: insertSorted less x ys

/-- The library call `sort.Slice`, as an insertion sort by `less`. -/
def sortSlice {α : Type} (less : α → α → Bool) : List α → List α
  | [] => []
  | x :: xs => insertSorted less x (sortSlice less xs)

/-- The function `sortEntries`. -/
def sortEntries (entries : List Node) : List Node :=
  sortSlice entryLess entries

/-- The function `readSortedEntries`: `nil` on a read error. -/
def readSortedEntries (c : Config) (path : Node) : List Node :=
  match osReadDir path with
  | none => []
  | some entries => sortEntries (filterEntries c entries)

/-- The function `printEntry`. -/
def printEntry (c : Config) (entry : Node) (pfx : String) (isLast : Bool) : String :=
  let linePrefix := if isLast then "└── " else "├── "
  let name :=
    if entry.IsDir && c.useColor then colorBlue ++ entry.Name ++ colorNone else entry.Name
  pfx ++ linePrefix ++ name ++ "\n"

/-- The function `getNextPrefix`. -/
def getNextPrefix (currentPrefix : String) (isLast : Bool) : String :=
  let connector := if isLast then "    " else "│   "
  currentPrefix ++ connector

/-! ### Facts needed to see that the traversal terminates -/

/-- The entries `filterEntries` keeps, as a predicate. -/
def keeps (c : Config) (entry : Node) : Bool :=
  !(decide (entry.Name = "." ∨ entry.Name = "..")) && !(shouldExclude c entry)

theorem filterEntries_foldl (c : Config) (entries acc : List Node) :
    entries.foldl
      (fun filtered entry =>
        if entry.Name = "." ∨ entry.Name = ".." then filtered
        else if shouldExclude c entry then filtered
        else filtered ++ [entry])
      acc = acc ++ entries.filter (keeps c) := by
  induction entries generalizing acc with
  | nil => simp
  | cons e es ih =>
    rw [List.foldl_cons, ih]
    by_cases h1 : e.Name = "." ∨ e.Name = ".."
    · simp [keeps, h1]
    · by_cases h2 : shouldExclude c e = true
      · simp [keeps, h1, h2]
      · simp [keeps, h1, h2]

theorem filterEntries_eq_filter (c : Config) (entries : List Node) :
    filterEntries c entries = entries.filter (keeps c) := by
  unfold filterEntries
  rw [filterEntries_foldl]
  simp

theorem mem_insertSorted {α : Type} (less : α → α → Bool) (x a : α) (l : List α) :
    a ∈ insertSorted less x l ↔ a = x ∨ a ∈ l := by
  induction l with
  | nil => simp [insertSorted]
  | cons y ys ih =>
    unfold insertSorted
    split
    · simp
    · simp [ih]; tauto

theorem mem_sortSlice {α : Type} (less : α → α → Bool) (a : α) (l : List α) :
    a ∈ sortSlice less l ↔ a ∈ l := by
  induction l with
  | nil => simp [sortSlice]
  | cons y ys ih => simp [sortSlice, mem_insertSorted, ih]

theorem mem_of_mem_readSortedEntries {c : Config} {name : String} {readErr : Bool}
    {entries : List Node} {e : Node}
    (h : e ∈ readSortedEntries c (.dir name readErr entries)) : e ∈ entries := by
  cases readErr with
  | true => simp [readSortedEntries, osReadDir] at h
  | false =>
    simp only [readSortedEntries, osReadDir, sortEntries, filterEntries_eq_filter] at h
    have h1 := (mem_sortSlice _ _ _).1 (by simpa using h)
    exact (List.mem_filter.1 h1).1

theorem sizeOf_lt_of_mem_readSortedEntries (c : Config) (path e : Node)
    (h : e ∈ readSortedEntries c path) : sizeOf e < sizeOf path := by
  cases path with
  | file n => simp [readSortedEntries, osReadDir] at h
  | dir n err es =>
    have h1 := List.sizeOf_lt_of_mem (mem_of_mem_readSortedEntries h)
    simp
    omega

/-- The function `generateTree`.  The string builder `tree` is the accumulator
of the loop over the indexed entries.  The depth is a mathematical integer here;
`generateTreeInt64` is the same function with the 64-bit wrap of `depth + 1`. -/
def generateTree (c : Config) (path : Node) (pfx : String) (depth : Int) : String :=
  if c.maxDepth ≠ -1 ∧ depth > c.maxDepth then ""
  else
    let entries := readSortedEntries c path
    entries.attach.enum.foldl
      (fun tree ie =>
        let isLast := decide ((ie.1 : Int) = (entries.length : Int) - 1)
        let tree := tree ++ printEntry c ie.2.1 pfx isLast
        if ie.2.1.IsDir then
          tree ++ generateTree c ie.2.1 (getNextPrefix pfx isLast) (depth + 1)
        else tree)
      ""
termination_by sizeOf path
decreasing_by exact sizeOf_lt_of_mem_readSortedEntries c path ie.2.1 ie.2.2

/-- The text one pass of the loop of `generateTree` adds for `entry`: its own
line, then the rendering of its contents when it is a directory. -/
def entryBlock (c : Config) (pfx : String) (depth : Int) (entry : Node) (isLast : Bool) :
    String :=
  printEntry c entry pfx isLast ++
    if entry.IsDir then generateTree c entry (getNextPrefix pfx isLast) (depth + 1) else ""

/-- The text the loop of `generateTree` builds for a list of sorted entries, the
last of which is the last sibling. -/
def renderGroup (c : Config) (pfx : String) (depth : Int) : List Node → String
  | [] => ""
  | entry :: rest =>
    entryBlock c pfx depth entry rest.isEmpty ++ renderGroup c pfx depth rest

/-! ## The loop of `generateTree` in closed form -/

theorem generateTree_loop (c : Config) (pfx : String) (depth : Int) (n : Nat)
    (P : Node → Prop) (l : List {x // P x}) (k : Nat) (hk : k + l.length = n) (acc : String) :
    (l.enumFrom k).foldl
      (fun tree ie =>
        let isLast := decide ((ie.1 : Int) = (n : Int) - 1)
        let tree := tree ++ printEntry c ie.2.1 pfx isLast
        if ie.2.1.IsDir then
          tree ++ generateTree c ie.2.1 (getNextPrefix pfx isLast) (depth + 1)
        else tree)
      acc = acc ++ renderGroup c pfx depth (l.map Subtype.val) := by
  induction l generalizing k acc with
  | nil => simp [renderGroup]
  | cons e es ih =>
    have hlen : k + 1 + es.length = n := by simp at hk; omega
    have hlast : decide ((k : Int) = (n : Int) - 1) = (es.map Subtype.val).isEmpty := by
      cases es with
      | nil => simp at hlen; simp; omega
      | cons a as => simp at hlen; simp; omega
    simp only [List.enumFrom_cons, List.foldl_cons, List.map_cons, renderGroup, entryBlock]
    rw [ih (k + 1) hlen, hlast]
    cases hd : e.1.IsDir <;> simp [String.append_assoc]

/-- One call of `generateTree`: nothing past the depth bound, otherwise the
blocks of the filtered, sorted entries of `path`, in order. -/
theorem generateTree_eq (c : Config) (path : Node) (pfx : String) (depth : Int) :
    generateTree c path pfx depth =
      if c.maxDepth ≠ -1 ∧ depth > c.maxDepth then ""
      else renderGroup c pfx depth (readSortedEntries c path) := by
  rw [generateTree]
  split
  · rfl
  · have h := generateTree_loop c pfx depth (readSortedEntries c path).length _
      (readSortedEntries c path).attach 0 (by simp) ""
    simp only [List.enum]
    rw [h]
    simp

/-! ## Strings -/

theorem join_nil : String.join [] = "" := rfl

theorem join_cons (s : String) (l : List String) : String.join (s :: l) = s ++ String.join l := by
  apply String.ext
  simp [String.data_join]

theorem join_append (l₁ l₂ : List String) :
    String.join (l₁ ++ l₂) = String.join l₁ ++ String.join l₂ := by
  apply String.ext
  simp [String.data_join]

theorem append_empty (s : String) : s ++ "" = s := by
  apply String.ext
  simp

theorem empty_append (s : String) : "" ++ s = s := by
  apply String.ext
  simp

/-! ## Induction over the file-system tree -/

theorem Node.induction {P : Node → Prop} (hfile : ∀ name, P (.file name))
    (hdir : ∀ name readErr entries, (∀ e ∈ entries, P e) → P (.dir name readErr entries)) :
    ∀ node, P node := by
  intro node
  generalize hn : sizeOf node = n
  induction n using Nat.strong_induction_on generalizing node with
  | _ n ih =>
    cases node with
    | file name => exact hfile name
    | dir name readErr entries =>
      apply hdir
      intro e he
      have hlt := List.sizeOf_lt_of_mem he
      apply ih (sizeOf e) _ e rfl
      rw [← hn]
      simp
      omega

theorem readSortedEntries_file (c : Config) (name : String) :
    readSortedEntries c (.file name) = [] := rfl

theorem readSortedEntries_dir (c : Config) (name : String) (entries : List Node) :
    readSortedEntries c (.dir name false entries) = sortEntries (filterEntries c entries) := rfl

theorem readSortedEntries_readErr (c : Config) (name : String) (entries : List Node) :
    readSortedEntries c (.dir name true entries) = [] := rfl

theorem generateTree_file (c : Config) (name pfx : String) (depth : Int) :
    generateTree c (.file name) pfx depth = "" := by
  rw [generateTree_eq, readSortedEntries_file]
  simp [renderGroup]

/-! ## C1: the end-to-end example -/

theorem perm_three {α : Type} {x y z : α} {l : List α} (h : l.Perm [x, y, z]) :
    l = [x, y, z] ∨ l = [y, x, z] ∨ l = [z, y, x] ∨ l = [y, z, x] ∨ l = [z, x, y] ∨
      l = [x, z, y] := by
  have h1 := List.mem_permutations.2 h
  simpa [List.permutations, List.permutationsAux_cons, List.permutationsAux2] using h1

/-- C1: with color off, max-depth -1 and no user exclusions, a root whose raw
listing holds, in any order, the empty directory `b`, the directory `a` with
the single file `x.txt`, and the file `z.txt` is rendered as the four lines of
the example. -/
theorem generateTree_example (rootName : String) (raw : List Node)
    (h : raw.Perm [.dir "b" false [], .dir "a" false [.file "x.txt"], .file "z.txt"]) :
    generateTree (initializeExclusions (setupFlags (-1) false [] []))
        (.dir rootName false raw) "" 0 =
      "├── a\n│   └── x.txt\n├── b\n└── z.txt\n" := by
  rcases perm_three h with h | h | h | h | h | h <;> subst h <;>
    simp [generateTree_eq, renderGroup, entryBlock, readSortedEntries, osReadDir, sortEntries,
      sortSlice, insertSorted, entryLess, filterEntries_eq_filter, keeps, shouldExclude,
      initializeExclusions, setupFlags, defaultDirs, defaultFiles, printEntry,
      getNextPrefix, Node.Name, Node.IsDir]

theorem generateTree_example_witness :
    generateTree (initializeExclusions (setupFlags (-1) false [] []))
        (.dir "root" false [.dir "b" false [], .dir "a" false [.file "x.txt"], .file "z.txt"])
        "" 0 =
      "├── a\n│   └── x.txt\n├── b\n└── z.txt\n" :=
  generateTree_example "root" _ (List.Perm.refl _)

/-! ## C2: the sort -/

theorem insertSorted_perm {α : Type} (less : α → α → Bool) (x : α) (l : List α) :
    (insertSorted less x l).Perm (x :: l) := by
  induction l with
  | nil => simp [insertSorted]
  | cons y ys ih =>
    unfold insertSorted
    split
    · exact List.Perm.refl _
    · exact (List.Perm.cons y ih).trans (List.Perm.swap x y ys)

theorem sortSlice_perm {α : Type} (less : α → α → Bool) (l : List α) :
    (sortSlice less l).Perm l := by
  induction l with
  | nil => simp [sortSlice]
  | cons x xs ih =>
    exact (insertSorted_perm less x (sortSlice less xs)).trans (List.Perm.cons x ih)

theorem insertSorted_pairwise {α : Type} (less : α → α → Bool)
    (hasymm : ∀ a b, less a b = true → less b a = false)
    (htrans : ∀ a b d, less a b = true → less b d = true → less a d = true)
    (x : α) (l : List α) (hl : l.Pairwise (fun a b => less b a = false)) :
    (insertSorted less x l).Pairwise (fun a b => less b a = false) := by
  induction l with
  | nil => simp [insertSorted]
  | cons y ys ih =>
    rw [List.pairwise_cons] at hl
    unfold insertSorted
    split
    · rename_i hxy
      refine List.Pairwise.cons ?_ (List.Pairwise.cons hl.1 hl.2)
      intro z hz
      rcases List.mem_cons.1 hz with hz | hz
      · subst hz
        exact hasymm _ _ hxy
      · cases hzx : less z x with
        | false => rfl
        | true =>
          have := htrans z x y hzx hxy
          rw [hl.1 z hz] at this
          exact absurd this (by simp)
    · rename_i hxy
      refine List.Pairwise.cons ?_ (ih hl.2)
      intro z hz
      rcases (mem_insertSorted less x z ys).1 hz with hz | hz
      · subst hz
        simpa using hxy
      · exact hl.1 z hz

theorem sortSlice_pairwise {α : Type} (less : α → α → Bool)
    (hasymm : ∀ a b, less a b = true → less b a = false)
    (htrans : ∀ a b d, less a b = true → less b d = true → less a d = true)
    (l : List α) : (sortSlice less l).Pairwise (fun a b => less b a = false) := by
  induction l with
  | nil => simp [sortSlice]
  | cons x xs ih => exact insertSorted_pairwise less hasymm htrans x _ ih

theorem entryLess_asymm (a b : Node) (h : entryLess a b = true) : entryLess b a = false := by
  unfold entryLess at *
  cases ha : a.IsDir <;> cases hb : b.IsDir <;> simp [ha, hb] at h ⊢
  · exact le_of_lt h
  · exact le_of_lt h

theorem entryLess_trans (a b d : Node) (hab : entryLess a b = true)
    (hbd : entryLess b d = true) : entryLess a d = true := by
  unfold entryLess at *
  cases ha : a.IsDir <;> cases hb : b.IsDir <;> cases hd : d.IsDir <;>
    simp [ha, hb, hd] at hab hbd ⊢
  · exact lt_trans hab hbd
  · exact lt_trans hab hbd

/-- The order the sort establishes between an earlier entry `a` and a later
entry `b`: a directory never follows a non-directory, and within one group the
names ascend. -/
def entryOrdered (a b : Node) : Prop :=
  (b.IsDir = true → a.IsDir = true) ∧ (a.IsDir = b.IsDir → a.Name ≤ b.Name)

theorem entryLess_eq_false_iff (a b : Node) : entryLess b a = false ↔ entryOrdered a b := by
  unfold entryLess entryOrdered
  cases ha : a.IsDir <;> cases hb : b.IsDir <;> simp [ha, hb]

theorem sortEntries_perm (l : List Node) : (sortEntries l).Perm l :=
  sortSlice_perm entryLess l

theorem sortEntries_pairwise (l : List Node) : (sortEntries l).Pairwise entryOrdered := by
  have h := sortSlice_pairwise entryLess entryLess_asymm entryLess_trans l
  exact h.imp (fun {a b} hab => (entryLess_eq_false_iff a b).1 hab)

/-- C2: for every raw listing, `readSortedEntries` returns a permutation of the
entries `filterEntries` keeps, in which every directory precedes every
non-directory and names ascend within each group (so a directory `B` precedes a
directory `a`); `generateTree` renders the group in exactly that order. -/
theorem readSortedEntries_sorted (c : Config) (name : String) (raw : List Node) :
    (readSortedEntries c (.dir name false raw)).Perm (filterEntries c raw) ∧
    (readSortedEntries c (.dir name false raw)).Pairwise
      (fun a b => (b.IsDir = true → a.IsDir = true) ∧ (a.IsDir = b.IsDir → a.Name ≤ b.Name)) ∧
    (∀ ea eb la lb, sortEntries [.dir "a" ea la, .dir "B" eb lb] =
      [.dir "B" eb lb, .dir "a" ea la]) ∧
    (∀ pfx depth, generateTree c (.dir name false raw) pfx depth =
      if c.maxDepth ≠ -1 ∧ depth > c.maxDepth then ""
      else renderGroup c pfx depth (readSortedEntries c (.dir name false raw))) := by
  refine ⟨sortEntries_perm _, sortEntries_pairwise _, ?_, fun pfx depth => generateTree_eq _ _ _ _⟩
  intro ea eb la lb
  simp [sortEntries, sortSlice, insertSorted, entryLess, Node.IsDir, Node.Name]
  decide

/-! ## C3: connectors -/

/-- The name as `printEntry` writes it: wrapped in the color pair for a
directory when color is on. -/
def displayName (c : Config) (entry : Node) : String :=
  if entry.IsDir && c.useColor then colorBlue ++ entry.Name ++ colorNone else entry.Name

/-- The connector of the entry at index `i` of a sibling group of size `n`. -/
def connectorAt (n i : Nat) : String :=
  if i + 1 = n then "└── " else "├── "

theorem printEntry_eq (c : Config) (entry : Node) (pfx : String) (isLast : Bool) :
    printEntry c entry pfx isLast =
      pfx ++ (if isLast then "└── " else "├── ") ++ displayName c entry ++ "\n" := rfl

theorem renderGroup_eq_join (c : Config) (pfx : String) (depth : Int) (n : Nat)
    (l : List Node) (k : Nat) (hk : k + l.length = n) :
    renderGroup c pfx depth l =
      String.join ((l.enumFrom k).map fun ie =>
        (pfx ++ connectorAt n ie.1 ++ displayName c ie.2 ++ "\n") ++
          if ie.2.IsDir then
            generateTree c ie.2 (getNextPrefix pfx (decide (ie.1 + 1 = n))) (depth + 1)
          else "") := by
  induction l generalizing k with
  | nil => simp [renderGroup, join_nil]
  | cons e es ih =>
    have hlen : k + 1 + es.length = n := by simp at hk; omega
    have hlast : es.isEmpty = decide (k + 1 = n) := by
      cases es with
      | nil => simp at hlen; simp; omega
      | cons a as => simp at hlen; simp; omega
    simp only [List.enumFrom_cons, List.map_cons, join_cons, renderGroup, entryBlock]
    rw [← ih (k + 1) hlen, hlast, printEntry_eq]
    by_cases hkn : k + 1 = n <;> simp [connectorAt, hkn]

/-- C3: in every rendered sibling group (the entries one call of `generateTree`
lists, `n` of them) the line of the entry at index `i` is the prefix, the
connector of index `i`, the name and a newline; that connector is `└── `
exactly for the last index `n - 1` and `├── ` for each of the other indices. -/
theorem connector_of_sibling_group (c : Config) (path : Node) (pfx : String) (depth : Int) :
    (generateTree c path pfx depth =
      if c.maxDepth ≠ -1 ∧ depth > c.maxDepth then ""
      else
        String.join ((readSortedEntries c path).enum.map fun ie =>
          (pfx ++ connectorAt (readSortedEntries c path).length ie.1 ++
              displayName c ie.2 ++ "\n") ++
            if ie.2.IsDir then
              generateTree c ie.2
                (getNextPrefix pfx (decide (ie.1 + 1 = (readSortedEntries c path).length)))
                (depth + 1)
            else "")) ∧
    (∀ n i, i < n → (connectorAt n i = "└── " ↔ i = n - 1)) ∧
    (∀ n i, i < n → i ≠ n - 1 → connectorAt n i = "├── ") ∧
    (∀ n, 1 ≤ n → ((List.range n).filter fun i => connectorAt n i = "└── ") = [n - 1]) := by
  refine ⟨?_, ?_, ?_, ?_⟩
  · rw [generateTree_eq]
    split
    · rfl
    · exact renderGroup_eq_join c pfx depth _ _ 0 (by simp)
  · intro n i hi
    unfold connectorAt
    by_cases h : i + 1 = n
    · simp [h]; omega
    · simp only [h, if_false]
      constructor
      · intro h1; exact absurd h1 (by decide)
      · intro h1; omega
  · intro n i hi hne
    unfold connectorAt
    rw [if_neg (by omega)]
  · intro n hn
    obtain ⟨m, rfl⟩ : ∃ m, n = m + 1 := ⟨n - 1, by omega⟩
    rw [List.range_succ, List.filter_append]
    have h1 : ((List.range m).filter fun i => connectorAt (m + 1) i = "└── ") = [] := by
      rw [List.filter_eq_nil_iff]
      intro i hi
      have hi' : i < m := List.mem_range.1 hi
      have : connectorAt (m + 1) i = "├── " := by
        unfold connectorAt
        rw [if_neg (by omega)]
      rw [this]
      decide
    rw [h1]
    simp [connectorAt]

/-! ## The rendered rows

The reference description of the output: the pre-order list of the entries that
are shown, each with the depth of the call that lists it and, for every
ancestor below the root (outermost first), whether that ancestor was the last
sibling of its group. -/

/-- One shown entry. -/
structure Row where
  depth : Int
  ancestors : List Bool
  entry : Node
  isLast : Bool

/-- The continuation segment below an ancestor. -/
def segment (isLast : Bool) : String :=
  if isLast then "    " else "│   "

/-- The connector in front of a name. -/
def connector (isLast : Bool) : String :=
  if isLast then "└── " else "├── "

/-- The continuation segments of a list of ancestors, one after the other. -/
def prefixText (ancestors : List Bool) : String :=
  String.join (ancestors.map segment)

/-- The line of a row under the prefix `pfx` of the root call. -/
def Row.text (c : Config) (pfx : String) (r : Row) : String :=
  pfx ++ prefixText r.ancestors ++ connector r.isLast ++ displayName c r.entry ++ "\n"

/-- The rows below `path`: nothing past the depth bound; otherwise, for each
filtered and sorted entry in order, its own row followed by the rows below it
when it is a directory. -/
def treeRows (c : Config) (path : Node) (ancestors : List Bool) (depth : Int) : List Row :=
  if c.maxDepth ≠ -1 ∧ depth > c.maxDepth then []
  else
    let entries := readSortedEntries c path
    entries.attach.enum.flatMap fun ie =>
      let isLast := decide (ie.1 + 1 = entries.length)
      Row.mk depth ancestors ie.2.1 isLast ::
        if ie.2.1.IsDir then treeRows c ie.2.1 (ancestors ++ [isLast]) (depth + 1) else []
termination_by sizeOf path
decreasing_by exact sizeOf_lt_of_mem_readSortedEntries c path ie.2.1 ie.2.2

/-- The rows of a list of sorted entries, the last of which is the last sibling. -/
def groupRows (c : Config) (ancestors : List Bool) (depth : Int) : List Node → List Row
  | [] => []
  | entry :: rest =>
    (Row.mk depth ancestors entry rest.isEmpty ::
      if entry.IsDir then treeRows c entry (ancestors ++ [rest.isEmpty]) (depth + 1) else []) ++
      groupRows c ancestors depth rest

theorem treeRows_loop (c : Config) (ancestors : List Bool) (depth : Int) (n : Nat)
    (P : Node → Prop) (l : List {x // P x}) (k : Nat) (hk : k + l.length = n) :
    ((l.enumFrom k).flatMap fun ie =>
      let isLast := decide (ie.1 + 1 = n)
      Row.mk depth ancestors ie.2.1 isLast ::
        if ie.2.1.IsDir then treeRows c ie.2.1 (ancestors ++ [isLast]) (depth + 1) else []) =
      groupRows c ancestors depth (l.map Subtype.val) := by
  induction l generalizing k with
  | nil => simp [groupRows]
  | cons e es ih =>
    have hlen : k + 1 + es.length = n := by simp at hk; omega
    have hlast : decide (k + 1 = n) = (es.map Subtype.val).isEmpty := by
      cases es with
      | nil => simp at hlen; simp; omega
      | cons a as => simp at hlen; simp; omega
    simp only [List.enumFrom_cons, List.flatMap_cons, List.map_cons, groupRows]
    rw [ih (k + 1) hlen, hlast]

theorem treeRows_eq (c : Config) (path : Node) (ancestors : List Bool) (depth : Int) :
    treeRows c path ancestors depth =
      if c.maxDepth ≠ -1 ∧ depth > c.maxDepth then []
      else groupRows c ancestors depth (readSortedEntries c path) := by
  rw [treeRows]
  split
  · rfl
  · have h := treeRows_loop c ancestors depth (readSortedEntries c path).length _
      (readSortedEntries c path).attach 0 (by simp)
    simp only [List.enum]
    rw [h]
    simp

theorem getNextPrefix_eq (pfx : String) (isLast : Bool) :
    getNextPrefix pfx isLast = pfx ++ segment isLast := rfl

theorem prefixText_append (ancestors : List Bool) (isLast : Bool) :
    prefixText (ancestors ++ [isLast]) = prefixText ancestors ++ segment isLast := by
  simp [prefixText, join_append, join_cons, join_nil, append_empty]

theorem printEntry_eq_text (c : Config) (pfx : String) (r : Row) :
    printEntry c r.entry (pfx ++ prefixText r.ancestors) r.isLast = r.text c pfx := rfl

/-- The output of `generateTree` is the concatenation of the lines of the rows. -/
theorem generateTree_eq_rows (c : Config) (path : Node) :
    ∀ (pfx : String) (ancestors : List Bool) (depth : Int),
      generateTree c path (pfx ++ prefixText ancestors) depth =
        String.join ((treeRows c path ancestors depth).map (Row.text c pfx)) := by
  induction path using Node.induction with
  | hfile name =>
    intro pfx ancestors depth
    rw [generateTree_file, treeRows_eq, readSortedEntries_file]
    simp [groupRows, join_nil]
  | hdir name readErr entries ih =>
    intro pfx ancestors depth
    rw [generateTree_eq, treeRows_eq]
    split
    · simp [join_nil]
    · have hsub : ∀ e ∈ readSortedEntries c (.dir name readErr entries), e ∈ entries :=
        fun e he => mem_of_mem_readSortedEntries he
      generalize readSortedEntries c (.dir name readErr entries) = l at hsub
      induction l with
      | nil => simp [renderGroup, groupRows, join_nil]
      | cons e es ihl =>
        have he := ih e (hsub e (List.mem_cons_self _ _))
        have hes := ihl (fun x hx => hsub x (List.mem_cons_of_mem _ hx))
        simp only [renderGroup, groupRows, entryBlock, List.map_append, List.map_cons,
          join_append, join_cons, hes]
        cases hd : e.IsDir
        · simp [join_nil, append_empty, Row.text, printEntry_eq, connector,
            String.append_assoc]
        · simp only [if_true, getNextPrefix_eq, String.append_assoc,
            ← prefixText_append]
          rw [he]
          rfl

/-! ## C4: prefix propagation -/

theorem mem_groupRows (c : Config) (ancestors : List Bool) (depth : Int) (r : Row)
    (l : List Node) :
    r ∈ groupRows c ancestors depth l ↔
      ∃ l₁ e l₂, l = l₁ ++ e :: l₂ ∧
        (r = Row.mk depth ancestors e l₂.isEmpty ∨
          (e.IsDir = true ∧ r ∈ treeRows c e (ancestors ++ [l₂.isEmpty]) (depth + 1))) := by
  induction l with
  | nil => simp [groupRows]
  | cons x xs ih =>
    simp only [groupRows, List.mem_append, List.mem_cons, ih]
    constructor
    · rintro ((h | h) | ⟨l₁, e, l₂, hl, h⟩)
      · exact ⟨[], x, xs, rfl, Or.inl h⟩
      · refine ⟨[], x, xs, rfl, Or.inr ?_⟩
        cases hd : x.IsDir
        · simp [hd] at h
        · simpa [hd] using h
      · exact ⟨x :: l₁, e, l₂, by simp [hl], h⟩
    · rintro ⟨l₁, e, l₂, hl, h⟩
      cases l₁ with
      | nil =>
        simp only [List.nil_append, List.cons.injEq] at hl
        obtain ⟨rfl, rfl⟩ := hl
        rcases h with h | ⟨hd, h⟩
        · exact Or.inl (Or.inl h)
        · exact Or.inl (Or.inr (by simpa [hd] using h))
      | cons y ys =>
        simp only [List.cons_append, List.cons.injEq] at hl
        exact Or.inr ⟨ys, e, l₂, hl.2, h⟩

theorem mem_treeRows (c : Config) (path : Node) (ancestors : List Bool) (depth : Int)
    (r : Row) :
    r ∈ treeRows c path ancestors depth ↔
      ¬ (c.maxDepth ≠ -1 ∧ depth > c.maxDepth) ∧
      ∃ l₁ e l₂, readSortedEntries c path = l₁ ++ e :: l₂ ∧
        (r = Row.mk depth ancestors e l₂.isEmpty ∨
          (e.IsDir = true ∧ r ∈ treeRows c e (ancestors ++ [l₂.isEmpty]) (depth + 1))) := by
  rw [treeRows_eq]
  split
  · rename_i h
    simp [h]
  · rename_i h
    simp only [h, not_false_eq_true, true_and]
    exact mem_groupRows c ancestors depth r _

theorem mem_of_readSortedEntries_eq {c : Config} {path : Node} {l₁ l₂ : List Node} {e : Node}
    (h : readSortedEntries c path = l₁ ++ e :: l₂) : e ∈ readSortedEntries c path := by
  rw [h]
  simp

theorem mem_entries_of_readSortedEntries_eq {c : Config} {name : String} {readErr : Bool}
    {entries l₁ l₂ : List Node} {e : Node}
    (h : readSortedEntries c (.dir name readErr entries) = l₁ ++ e :: l₂) : e ∈ entries :=
  mem_of_mem_readSortedEntries (mem_of_readSortedEntries_eq h)

/-- The ancestors of a row extend those of the call, one flag per level. -/
theorem treeRows_ancestors (c : Config) (path : Node) :
    ∀ (ancestors : List Bool) (depth : Int) (r : Row), r ∈ treeRows c path ancestors depth →
      ∃ suffix : List Bool, r.ancestors = ancestors ++ suffix ∧
        r.depth = depth + suffix.length := by
  induction path using Node.induction with
  | hfile name =>
    intro ancestors depth r hr
    rw [treeRows_eq, readSortedEntries_file] at hr
    simp [groupRows] at hr
  | hdir name readErr entries ih =>
    intro ancestors depth r hr
    obtain ⟨_, l₁, e, l₂, hl, h⟩ := (mem_treeRows c _ ancestors depth r).1 hr
    rcases h with h | ⟨_, h⟩
    · exact ⟨[], by simp [h], by simp [h]⟩
    · obtain ⟨suffix, h1, h2⟩ :=
        ih e (mem_entries_of_readSortedEntries_eq hl) _ _ r h
      refine ⟨l₂.isEmpty :: suffix, by simp [h1], ?_⟩
      rw [h2]
      simp
      omega

/-- Every row is either an entry of the group of the call, or has a parent row:
a shown directory whose group it belongs to and whose ancestors, extended by
that directory's own last-sibling flag, are its ancestors. -/
theorem treeRows_parent (c : Config) (path : Node) :
    ∀ (ancestors : List Bool) (depth : Int) (r : Row), r ∈ treeRows c path ancestors depth →
      (r.ancestors = ancestors ∧ r.depth = depth ∧ r.entry ∈ readSortedEntries c path) ∨
      ∃ p ∈ treeRows c path ancestors depth, p.entry.IsDir = true ∧
        r.ancestors = p.ancestors ++ [p.isLast] ∧ r.depth = p.depth + 1 ∧
        r.entry ∈ readSortedEntries c p.entry := by
  induction path using Node.induction with
  | hfile name =>
    intro ancestors depth r hr
    rw [treeRows_eq, readSortedEntries_file] at hr
    simp [groupRows] at hr
  | hdir name readErr entries ih =>
    intro ancestors depth r hr
    obtain ⟨hb, l₁, e, l₂, hl, h⟩ := (mem_treeRows c _ ancestors depth r).1 hr
    rcases h with h | ⟨hd, h⟩
    · left
      subst h
      exact ⟨rfl, rfl, mem_of_readSortedEntries_eq hl⟩
    · right
      have hsub : ∀ q, q ∈ treeRows c e (ancestors ++ [l₂.isEmpty]) (depth + 1) →
          q ∈ treeRows c (.dir name readErr entries) ancestors depth :=
        fun q hq => (mem_treeRows c _ ancestors depth q).2
          ⟨hb, l₁, e, l₂, hl, Or.inr ⟨hd, hq⟩⟩
      rcases ih e (mem_entries_of_readSortedEntries_eq hl) _ _ r h with
        ⟨h1, h2, h3⟩ | ⟨p, hp, hpd, h1, h2, h3⟩
      · refine ⟨Row.mk depth ancestors e l₂.isEmpty, ?_, hd, h1, h2, h3⟩
        exact (mem_treeRows c _ ancestors depth _).2 ⟨hb, l₁, e, l₂, hl, Or.inl rfl⟩
      · exact ⟨p, hsub p hp, hpd, h1, h2, h3⟩

theorem segment_length (isLast : Bool) : (segment isLast).length = 4 := by
  cases isLast <;> decide

/-- C4: the output of `generateTree root "" 0` is, row by row, one
four-character segment per ancestor (`"    "` below an ancestor that was the
last sibling of its group, `"│   "` below one that was not), then the connector
and the name; the number of segments of a row is its nesting depth; a row of
depth 0 has no segment and every deeper row extends the segments of its parent
directory's row by the one segment that parent's last-sibling flag selects. -/
theorem prefix_propagation (c : Config) (root : Node) :
    generateTree c root "" 0 =
      String.join ((treeRows c root [] 0).map fun r =>
        String.join (r.ancestors.map fun last => if last then "    " else "│   ") ++
          (if r.isLast then "└── " else "├── ") ++ displayName c r.entry ++ "\n") ∧
    (∀ r ∈ treeRows c root [] 0, (r.ancestors.length : Int) = r.depth) ∧
    (∀ r ∈ treeRows c root [] 0,
      (r.ancestors = [] ∧ r.depth = 0 ∧ r.entry ∈ readSortedEntries c root) ∨
      ∃ p ∈ treeRows c root [] 0, p.entry.IsDir = true ∧
        r.ancestors = p.ancestors ++ [p.isLast] ∧ r.depth = p.depth + 1 ∧
        r.entry ∈ readSortedEntries c p.entry) ∧
    (∀ last : Bool, (if last then "    " else "│   ").length = 4) := by
  refine ⟨?_, ?_, ?_, ?_⟩
  · have h := generateTree_eq_rows c root "" [] 0
    simp only [prefixText, List.map_nil, join_nil, append_empty] at h
    rw [h]
    rfl
  · intro r hr
    obtain ⟨suffix, h1, h2⟩ := treeRows_ancestors c root [] 0 r hr
    rw [h1, h2]
    simp
  · exact treeRows_parent c root [] 0
  · intro last
    exact segment_length last

/-! ## Maps that keep names and kinds -/

theorem keeps_congr (c : Config) {a b : Node} (hname : a.Name = b.Name)
    (hdir : a.IsDir = b.IsDir) : keeps c a = keeps c b := by
  simp [keeps, shouldExclude, hname, hdir]

theorem entryLess_congr {a a' b b' : Node} (hna : a.Name = a'.Name) (hda : a.IsDir = a'.IsDir)
    (hnb : b.Name = b'.Name) (hdb : b.IsDir = b'.IsDir) : entryLess a b = entryLess a' b' := by
  simp [entryLess, hna, hda, hnb, hdb]

theorem filterEntries_map (c : Config) (f : Node → Node) (hname : ∀ e, (f e).Name = e.Name)
    (hdir : ∀ e, (f e).IsDir = e.IsDir) (l : List Node) :
    filterEntries c (l.map f) = (filterEntries c l).map f := by
  rw [filterEntries_eq_filter, filterEntries_eq_filter]
  induction l with
  | nil => rfl
  | cons x xs ih =>
    simp only [List.map_cons, List.filter_cons, keeps_congr c (hname x) (hdir x), ih]
    split <;> rfl

theorem insertSorted_map {α : Type} (less : α → α → Bool) (f : α → α)
    (hf : ∀ a b, less (f a) (f b) = less a b) (x : α) (l : List α) :
    insertSorted less (f x) (l.map f) = (insertSorted less x l).map f := by
  induction l with
  | nil => rfl
  | cons y ys ih =>
    simp only [List.map_cons, insertSorted, hf, ih]
    split <;> rfl

theorem sortSlice_map {α : Type} (less : α → α → Bool) (f : α → α)
    (hf : ∀ a b, less (f a) (f b) = less a b) (l : List α) :
    sortSlice less (l.map f) = (sortSlice less l).map f := by
  induction l with
  | nil => rfl
  | cons x xs ih => simp only [List.map_cons, sortSlice, ih, insertSorted_map less f hf]

theorem sortEntries_map (f : Node → Node) (hname : ∀ e, (f e).Name = e.Name)
    (hdir : ∀ e, (f e).IsDir = e.IsDir) (l : List Node) :
    sortEntries (l.map f) = (sortEntries l).map f :=
  sortSlice_map entryLess f
    (fun a b => entryLess_congr (hname a) (hdir a) (hname b) (hdir b)) l

theorem renderGroup_map (c c' : Config) (pfx : String) (depth : Int) (f : Node → Node)
    (l : List Node)
    (h : ∀ e ∈ l, ∀ isLast, entryBlock c pfx depth (f e) isLast =
      entryBlock c' pfx depth e isLast) :
    renderGroup c pfx depth (l.map f) = renderGroup c' pfx depth l := by
  induction l with
  | nil => rfl
  | cons x xs ih =>
    simp only [List.map_cons, renderGroup]
    rw [ih (fun e he => h e (List.mem_cons_of_mem _ he)), h x (List.mem_cons_self _ _)]
    cases xs <;> rfl

theorem generateTree_no_entries (c : Config) (name : String) (readErr : Bool) (pfx : String)
    (depth : Int) : generateTree c (.dir name readErr []) pfx depth = "" := by
  rw [generateTree_eq]
  cases readErr <;> simp [readSortedEntries, osReadDir, sortEntries, sortSlice,
    filterEntries, renderGroup]

/-! ## C5: the depth bound -/

/-- The configuration with another `-max-depth`. -/
def withMaxDepth (c : Config) (m : Int) : Config :=
  { c with maxDepth := m }

/-- A directory with its entries removed. -/
def emptied : Node → Node
  | .file name => .file name
  | .dir name readErr _ => .dir name readErr []

mutual
/-- The tree below `node` with every directory `k` levels below the entries of
`node` emptied: `truncate 0` empties the directories among the entries of
`node` themselves. -/
def truncate : Nat → Node → Node
  | _, .file name => .file name
  | k, .dir name readErr entries => .dir name readErr (truncateList k entries)
/-- The entries of a directory, truncated. -/
def truncateList : Nat → List Node → List Node
  | _, [] => []
  | k, e :: es =>
    (match k with
      | 0 => emptied e
      | k + 1 => truncate k e) :: truncateList k es
end

/-- What `truncate k` does to one entry of the directory it is applied to. -/
def truncateEntry (k : Nat) (e : Node) : Node :=
  match k with
  | 0 => emptied e
  | k + 1 => truncate k e

theorem truncateList_eq_map (k : Nat) (l : List Node) :
    truncateList k l = l.map (truncateEntry k) := by
  induction l with
  | nil => simp [truncateList]
  | cons x xs ih =>
    cases k <;> simp [truncateList, truncateEntry, ih]

theorem truncateEntry_Name (k : Nat) (e : Node) : (truncateEntry k e).Name = e.Name := by
  cases k <;> cases e <;> simp [truncateEntry, emptied, truncate, Node.Name]

theorem truncateEntry_IsDir (k : Nat) (e : Node) : (truncateEntry k e).IsDir = e.IsDir := by
  cases k <;> cases e <;> simp [truncateEntry, emptied, truncate, Node.IsDir]

theorem readSortedEntries_truncate (c : Config) (k : Nat) (name : String) (readErr : Bool)
    (entries : List Node) :
    readSortedEntries c (truncate k (.dir name readErr entries)) =
      (readSortedEntries c (.dir name readErr entries)).map (truncateEntry k) := by
  cases readErr with
  | true => simp [truncate, readSortedEntries, osReadDir]
  | false =>
    simp only [truncate, readSortedEntries, osReadDir, truncateList_eq_map]
    simp only [Bool.false_eq_true, if_false]
    rw [filterEntries_map c _ (truncateEntry_Name k) (truncateEntry_IsDir k),
      sortEntries_map _ (truncateEntry_Name k) (truncateEntry_IsDir k)]

theorem printEntry_congr (c c' : Config) (hc : c.useColor = c'.useColor) {a b : Node}
    (hname : a.Name = b.Name) (hdir : a.IsDir = b.IsDir) (pfx : String) (isLast : Bool) :
    printEntry c a pfx isLast = printEntry c' b pfx isLast := by
  simp [printEntry, hc, hname, hdir]

/-- Rendering with bound `D` is rendering, with bound `D` or unbounded, of the
tree truncated at the matching level. -/
theorem generateTree_truncate (c : Config) (D : Nat) (m : Int) (hm : m = -1 ∨ m = D)
    (path : Node) :
    ∀ (pfx : String) (d : Int) (k : Nat), d + k = D →
      generateTree (withMaxDepth c D) path pfx d =
        generateTree (withMaxDepth c m) (truncate k path) pfx d := by
  induction path using Node.induction with
  | hfile name =>
    intro pfx d k _
    simp [truncate, generateTree_file]
  | hdir name readErr entries ih =>
    intro pfx d k hk
    have h1 : ¬ ((withMaxDepth c D).maxDepth ≠ -1 ∧ d > (withMaxDepth c D).maxDepth) := by
      simp only [withMaxDepth]
      omega
    have h2 : ¬ ((withMaxDepth c m).maxDepth ≠ -1 ∧ d > (withMaxDepth c m).maxDepth) := by
      simp only [withMaxDepth]
      omega
    rw [generateTree_eq, generateTree_eq, if_neg h1, if_neg h2, readSortedEntries_truncate]
    have hr : readSortedEntries (withMaxDepth c m) (.dir name readErr entries) =
        readSortedEntries (withMaxDepth c D) (.dir name readErr entries) := rfl
    rw [hr]
    symm
    apply renderGroup_map
    intro e he isLast
    have hmem : e ∈ entries := mem_of_mem_readSortedEntries he
    unfold entryBlock
    rw [printEntry_congr (withMaxDepth c m) (withMaxDepth c D) rfl
      (truncateEntry_Name k e) (truncateEntry_IsDir k e), truncateEntry_IsDir]
    cases hd : e.IsDir
    · rfl
    · simp only [if_true]
      congr 1
      cases k with
      | zero =>
        have hpr : generateTree (withMaxDepth c D) e (getNextPrefix pfx isLast) (d + 1) = "" := by
          rw [generateTree_eq, if_pos]
          simp only [withMaxDepth]
          simp at hk
          omega
        rw [hpr]
        cases e with
        | file n => simp [Node.IsDir] at hd
        | dir n err es => exact generateTree_no_entries _ _ _ _ _
      | succ k' =>
        exact (ih e hmem _ (d + 1) k' (by push_cast at hk; omega)).symm

theorem generateTree_eq_rows_root (c : Config) (path : Node) (pfx : String) (depth : Int) :
    generateTree c path pfx depth =
      String.join ((treeRows c path [] depth).map (Row.text c pfx)) := by
  have h := generateTree_eq_rows c path pfx [] depth
  simp only [prefixText, List.map_nil, join_nil, append_empty] at h
  exact h

/-- The rows under the bound `D` are the rows of the unbounded traversal whose
depth is at most `D`. -/
theorem treeRows_depth_bound (c : Config) (D : Nat) (path : Node) :
    ∀ (ancestors : List Bool) (d : Int),
      treeRows (withMaxDepth c D) path ancestors d =
        (treeRows (withMaxDepth c (-1)) path ancestors d).filter
          fun r => decide (r.depth ≤ (D : Int)) := by
  induction path using Node.induction with
  | hfile name =>
    intro ancestors d
    rw [treeRows_eq, treeRows_eq, readSortedEntries_file, readSortedEntries_file]
    simp [groupRows]
  | hdir name readErr entries ih =>
    intro ancestors d
    by_cases hd : d > D
    · have h1 : treeRows (withMaxDepth c D) (.dir name readErr entries) ancestors d = [] := by
        rw [treeRows_eq, if_pos]
        simp only [withMaxDepth]
        omega
      rw [h1]
      symm
      rw [List.filter_eq_nil_iff]
      intro r hr
      obtain ⟨suffix, _, h3⟩ := treeRows_ancestors _ _ ancestors d r hr
      simp only [decide_eq_true_eq]
      omega
    · have h1 : ¬ ((withMaxDepth c D).maxDepth ≠ -1 ∧ d > (withMaxDepth c D).maxDepth) := by
        simp only [withMaxDepth]
        omega
      have h2 : ¬ ((withMaxDepth c (-1)).maxDepth ≠ -1 ∧
          d > (withMaxDepth c (-1)).maxDepth) := by
        simp [withMaxDepth]
      rw [treeRows_eq, treeRows_eq, if_neg h1, if_neg h2]
      have hr : readSortedEntries (withMaxDepth c (-1)) (.dir name readErr entries) =
          readSortedEntries (withMaxDepth c D) (.dir name readErr entries) := rfl
      rw [hr]
      have hsub : ∀ e ∈ readSortedEntries (withMaxDepth c D) (.dir name readErr entries),
          e ∈ entries := fun e he => mem_of_mem_readSortedEntries he
      generalize readSortedEntries (withMaxDepth c D) (.dir name readErr entries) = l at hsub
      induction l with
      | nil => simp [groupRows]
      | cons e es ihl =>
        have he := ih e (hsub e (List.mem_cons_self _ _))
        have hes := ihl (fun x hx => hsub x (List.mem_cons_of_mem _ hx))
        have hle : d ≤ (D : Int) := by omega
        simp only [groupRows, List.cons_append, List.filter_cons, List.filter_append,
          decide_eq_true_eq, hle, if_true, hes]
        cases hdir : e.IsDir
        · simp
        · simp [he]

/-- C5: with max-depth `D ≥ 0` the rendered rows are exactly the rows of the
unbounded rendering whose nesting depth is at most `D` (every shown entry down
to depth `D`, the directories at depth `D` among them, and nothing deeper), and
the output is the output, bounded or unbounded, for the tree in which every
directory at depth `D` has been emptied. -/
theorem depth_bound (c : Config) (root : Node) (D : Nat) :
    (∀ pfx, generateTree (withMaxDepth c D) root pfx 0 =
      String.join ((treeRows (withMaxDepth c D) root [] 0).map (Row.text c pfx))) ∧
    (∀ pfx, generateTree (withMaxDepth c (-1)) root pfx 0 =
      String.join ((treeRows (withMaxDepth c (-1)) root [] 0).map (Row.text c pfx))) ∧
    treeRows (withMaxDepth c D) root [] 0 =
      ((treeRows (withMaxDepth c (-1)) root [] 0).filter fun r => decide (r.depth ≤ (D : Int))) ∧
    (∀ pfx, generateTree (withMaxDepth c D) root pfx 0 =
      generateTree (withMaxDepth c D) (truncate D root) pfx 0) ∧
    (∀ pfx, generateTree (withMaxDepth c D) root pfx 0 =
      generateTree (withMaxDepth c (-1)) (truncate D root) pfx 0) := by
  refine ⟨fun pfx => generateTree_eq_rows_root _ _ _ _,
    fun pfx => generateTree_eq_rows_root _ _ _ _, treeRows_depth_bound c D root [] 0,
    fun pfx => ?_, fun pfx => ?_⟩
  · exact generateTree_truncate c D D (Or.inr rfl) root pfx 0 D (by simp)
  · exact generateTree_truncate c D (-1) (Or.inl rfl) root pfx 0 D (by simp)

/-! ## C6: the number of lines -/

mutual
/-- The number of entries `generateTree` shows below the directory `node` when
called at `depth`: none past the depth bound or when the directory cannot be
read, otherwise the count of its listing. -/
def countEntries (c : Config) : Int → Node → Nat
  | _, .file _ => 0
  | depth, .dir _ readErr entries =>
    if c.maxDepth ≠ -1 ∧ depth > c.maxDepth then 0
    else if readErr then 0
    else countList c depth entries
/-- The count of a raw listing: every entry that is not dropped counts once; a
directory adds the count of its own contents, one level deeper. -/
def countList (c : Config) : Int → List Node → Nat
  | _, [] => 0
  | depth, e :: es =>
    (if keeps c e then 1 + (if e.IsDir then countEntries c (depth + 1) e else 0) else 0) +
      countList c depth es
end

/-- The number of newline characters of a text. -/
def newlines (s : String) : Nat :=
  s.toList.count '\n'

theorem countList_eq_sum (c : Config) (depth : Int) (l : List Node) :
    countList c depth l =
      ((l.filter (keeps c)).map fun e =>
        1 + (if e.IsDir then countEntries c (depth + 1) e else 0)).sum := by
  induction l with
  | nil => simp [countList]
  | cons x xs ih =>
    simp only [countList, ih, List.filter_cons]
    cases keeps c x <;> simp

theorem groupRows_length (c : Config) (ancestors : List Bool) (depth : Int) (l : List Node)
    (h : ∀ e ∈ l, ∀ anc, (treeRows c e anc (depth + 1)).length = countEntries c (depth + 1) e) :
    (groupRows c ancestors depth l).length =
      (l.map fun e => 1 + (if e.IsDir then countEntries c (depth + 1) e else 0)).sum := by
  induction l with
  | nil => simp [groupRows]
  | cons x xs ih =>
    have hx := h x (List.mem_cons_self _ _)
    have hxs := ih (fun e he => h e (List.mem_cons_of_mem _ he))
    simp only [groupRows, List.length_append, List.length_cons, hxs, List.map_cons,
      List.sum_cons]
    cases hd : x.IsDir
    · simp
    · simp [hx]
      omega

/-- The number of rows is the count of the shown entries. -/
theorem treeRows_length (c : Config) (path : Node) :
    ∀ (ancestors : List Bool) (depth : Int),
      (treeRows c path ancestors depth).length = countEntries c depth path := by
  induction path using Node.induction with
  | hfile name =>
    intro ancestors depth
    rw [treeRows_eq, readSortedEntries_file]
    simp [groupRows, countEntries]
  | hdir name readErr entries ih =>
    intro ancestors depth
    rw [treeRows_eq]
    simp only [countEntries]
    split
    · rfl
    · cases readErr with
      | true => simp [readSortedEntries_readErr, groupRows]
      | false =>
        simp only [Bool.false_eq_true, if_false]
        rw [groupRows_length c ancestors depth _
          (fun e he anc => ih e (mem_of_mem_readSortedEntries he) anc (depth + 1)),
          countList_eq_sum, readSortedEntries_dir, filterEntries_eq_filter]
        exact ((sortEntries_perm _).map _).sum_eq

theorem newlines_append (s t : String) : newlines (s ++ t) = newlines s + newlines t := by
  simp [newlines, String.toList]

theorem newlines_join (l : List String) :
    newlines (String.join l) = (l.map newlines).sum := by
  induction l with
  | nil => rfl
  | cons x xs ih => rw [join_cons, newlines_append, ih, List.map_cons, List.sum_cons]

theorem newlines_prefixText (ancestors : List Bool) : newlines (prefixText ancestors) = 0 := by
  unfold prefixText
  rw [newlines_join]
  induction ancestors with
  | nil => rfl
  | cons b bs ih =>
    rw [List.map_cons, List.map_cons, List.sum_cons, ih]
    cases b <;> decide

theorem newlines_displayName (c : Config) (e : Node) :
    newlines (displayName c e) = newlines e.Name := by
  unfold displayName
  split
  · rw [newlines_append, newlines_append]
    have h1 : newlines colorBlue = 0 := by decide
    have h2 : newlines colorNone = 0 := by decide
    omega
  · rfl

theorem newlines_text (c : Config) (r : Row) :
    newlines (r.text c "") = newlines r.entry.Name + 1 := by
  unfold Row.text
  rw [newlines_append, newlines_append, newlines_append, newlines_append,
    newlines_prefixText, newlines_displayName]
  have h1 : newlines "" = 0 := by decide
  have h2 : newlines (connector r.isLast) = 0 := by cases r.isLast <;> decide
  have h3 : newlines "\n" = 1 := by decide
  omega

/-- The newlines of the output: one per shown entry, plus those inside the shown
names. -/
theorem newlines_generateTree (c : Config) (root : Node) :
    newlines (generateTree c root "" 0) =
      countEntries c 0 root +
        ((treeRows c root [] 0).map fun r => newlines r.entry.Name).sum := by
  rw [generateTree_eq_rows_root, newlines_join, ← treeRows_length c root [] 0, List.map_map]
  generalize treeRows c root [] 0 = rows
  induction rows with
  | nil => rfl
  | cons r rs ih =>
    rw [List.map_cons, List.sum_cons, ih, Function.comp_apply, newlines_text, List.length_cons,
      List.map_cons, List.sum_cons]
    omega

/-- C6 (amended): when no shown name contains a newline, the number of
newline-terminated lines of the output of `generateTree root "" 0` is the
number of entries that are not dropped within the depth bound, a directory
counting once for itself plus the count of its own contents and a file counting
once; the output is the concatenation of one `printEntry` result per such
entry. -/
theorem line_count (c : Config) (root : Node)
    (h : ∀ r ∈ treeRows c root [] 0, '\n' ∉ r.entry.Name.toList) :
    newlines (generateTree c root "" 0) = countEntries c 0 root ∧
    generateTree c root "" 0 = String.join ((treeRows c root [] 0).map (Row.text c "")) ∧
    (treeRows c root [] 0).length = countEntries c 0 root := by
  refine ⟨?_, generateTree_eq_rows_root c root "" 0, treeRows_length c root [] 0⟩
  rw [newlines_generateTree]
  have hz : ((treeRows c root [] 0).map fun r => newlines r.entry.Name).sum = 0 := by
    apply List.sum_eq_zero
    intro n hn
    obtain ⟨r, hr, rfl⟩ := List.mem_map.1 hn
    unfold newlines
    exact List.count_eq_zero.2 (h r hr)
  omega

theorem line_count_witness :
    newlines (generateTree (initializeExclusions (setupFlags (-1) false [] []))
      (.dir "root" false [.dir "b" false [], .dir "a" false [.file "x.txt"], .file "z.txt",
        .dir ".git" false [.file "HEAD"]]) "" 0) = 4 := by
  have hc : countEntries (initializeExclusions (setupFlags (-1) false [] [])) 0
      (.dir "root" false [.dir "b" false [], .dir "a" false [.file "x.txt"], .file "z.txt",
        .dir ".git" false [.file "HEAD"]]) = 4 := by decide
  rw [← hc]
  refine (line_count (initializeExclusions (setupFlags (-1) false [] []))
    (.dir "root" false [.dir "b" false [], .dir "a" false [.file "x.txt"], .file "z.txt",
      .dir ".git" false [.file "HEAD"]]) ?_).1
  intro r hr
  simp [treeRows_eq, groupRows, readSortedEntries, osReadDir, sortEntries,
    sortSlice, insertSorted, entryLess, filterEntries_eq_filter, keeps, shouldExclude,
    initializeExclusions, setupFlags, defaultDirs, defaultFiles, Node.Name, Node.IsDir] at hr
  rcases hr with rfl | rfl | rfl | rfl <;> decide

/-- A file name with a newline in it: three entries are shown, and the output
has four newline-terminated lines. -/
theorem line_count_counterexample :
    generateTree (initializeExclusions (setupFlags (-1) false [] []))
        (.dir "root" false [.file "a\nb", .dir "d" false [.file "x"]]) "" 0 =
      "├── d\n│   └── x\n└── a\nb\n" ∧
    newlines (generateTree (initializeExclusions (setupFlags (-1) false [] []))
        (.dir "root" false [.file "a\nb", .dir "d" false [.file "x"]]) "" 0) = 4 ∧
    countEntries (initializeExclusions (setupFlags (-1) false [] [])) 0
        (.dir "root" false [.file "a\nb", .dir "d" false [.file "x"]]) = 3 := by
  have hout : generateTree (initializeExclusions (setupFlags (-1) false [] []))
      (.dir "root" false [.file "a\nb", .dir "d" false [.file "x"]]) "" 0 =
      "├── d\n│   └── x\n└── a\nb\n" := by
    simp [generateTree_eq, renderGroup, entryBlock, readSortedEntries, osReadDir, sortEntries,
      sortSlice, insertSorted, entryLess, filterEntries_eq_filter, keeps, shouldExclude,
      initializeExclusions, setupFlags, defaultDirs, defaultFiles, printEntry,
      getNextPrefix, Node.Name, Node.IsDir]
  refine ⟨hout, ?_, by decide⟩
  rw [hout]
  decide

/-! ## C7: exclusion, end to end -/

/-- Whether an entry is a directory named in the directory-exclusion set or a
non-directory named in the file-exclusion set. -/
def namedInExclusions (c : Config) (e : Node) : Bool :=
  (e.IsDir && decide (e.Name ∈ c.excludeDirSet)) ||
    (!e.IsDir && decide (e.Name ∈ c.excludeFileSet))

mutual
/-- The tree with every excluded directory (and all below it) and every
excluded file deleted, at every level below `node`. -/
def deleteExcluded (c : Config) : Node → Node
  | .file name => .file name
  | .dir name readErr entries => .dir name readErr (deleteExcludedList c entries)
/-- The entries of a directory after the deletion. -/
def deleteExcludedList (c : Config) : List Node → List Node
  | [] => []
  | e :: es =>
    if namedInExclusions c e then deleteExcludedList c es
    else deleteExcluded c e :: deleteExcludedList c es
end

theorem shouldExclude_eq (c : Config) (e : Node) :
    shouldExclude c e = namedInExclusions c e := by
  unfold shouldExclude namedInExclusions
  cases e.IsDir <;> simp

theorem deleteExcludedList_eq (c : Config) (l : List Node) :
    deleteExcludedList c l =
      (l.filter fun e => !namedInExclusions c e).map (deleteExcluded c) := by
  induction l with
  | nil => simp [deleteExcludedList]
  | cons x xs ih =>
    simp only [deleteExcludedList, ih, List.filter_cons]
    cases namedInExclusions c x <;> simp

theorem deleteExcluded_Name (c : Config) (e : Node) : (deleteExcluded c e).Name = e.Name := by
  cases e <;> simp [deleteExcluded, Node.Name]

theorem deleteExcluded_IsDir (c : Config) (e : Node) :
    (deleteExcluded c e).IsDir = e.IsDir := by
  cases e <;> simp [deleteExcluded, Node.IsDir]

theorem filterEntries_filter_not_excluded (c : Config) (l : List Node) :
    filterEntries c (l.filter fun e => !namedInExclusions c e) = filterEntries c l := by
  rw [filterEntries_eq_filter, filterEntries_eq_filter, List.filter_filter]
  apply List.filter_congr
  intro e _
  simp only [keeps, shouldExclude_eq]
  cases namedInExclusions c e <;> simp

theorem readSortedEntries_deleteExcluded (c : Config) (name : String) (readErr : Bool)
    (entries : List Node) :
    readSortedEntries c (deleteExcluded c (.dir name readErr entries)) =
      (readSortedEntries c (.dir name readErr entries)).map (deleteExcluded c) := by
  cases readErr with
  | true => simp [deleteExcluded, readSortedEntries, osReadDir]
  | false =>
    simp only [deleteExcluded, readSortedEntries, osReadDir, deleteExcludedList_eq]
    simp only [Bool.false_eq_true, if_false]
    rw [filterEntries_map c _ (deleteExcluded_Name c) (deleteExcluded_IsDir c),
      sortEntries_map _ (deleteExcluded_Name c) (deleteExcluded_IsDir c),
      filterEntries_filter_not_excluded]

/-- Deleting what is excluded does not change the output. -/
theorem generateTree_deleteExcluded (c : Config) (path : Node) :
    ∀ (pfx : String) (depth : Int),
      generateTree c (deleteExcluded c path) pfx depth = generateTree c path pfx depth := by
  induction path using Node.induction with
  | hfile name =>
    intro pfx depth
    simp [deleteExcluded]
  | hdir name readErr entries ih =>
    intro pfx depth
    rw [generateTree_eq, generateTree_eq, readSortedEntries_deleteExcluded]
    split
    · rfl
    · apply renderGroup_map
      intro e he isLast
      unfold entryBlock
      rw [printEntry_congr c c rfl (deleteExcluded_Name c e) (deleteExcluded_IsDir c e),
        deleteExcluded_IsDir, ih e (mem_of_mem_readSortedEntries he)]

theorem mem_foldl_insert (l s : List String) (a : String) :
    a ∈ l.foldl (fun set d => set.insert d) s ↔ a ∈ s ∨ a ∈ l := by
  induction l generalizing s with
  | nil => simp
  | cons x xs ih =>
    rw [List.foldl_cons, ih, List.mem_insert_iff, List.mem_cons]
    tauto

theorem mem_excludeDirSet (c : Config) (a : String) :
    a ∈ (initializeExclusions c).excludeDirSet ↔
      a ∈ c.excludeDirSet ∨ a ∈ defaultDirs ∨ a ∈ c.excludeDirs := by
  simp only [initializeExclusions, mem_foldl_insert, List.mem_append]

theorem mem_excludeFileSet (c : Config) (a : String) :
    a ∈ (initializeExclusions c).excludeFileSet ↔
      a ∈ c.excludeFileSet ∨ a ∈ defaultFiles ∨ a ∈ c.excludeFiles := by
  simp only [initializeExclusions, mem_foldl_insert, List.mem_append]

/-- C7: whatever the user-supplied exclusion lists, the output of `generateTree`
is the same for the tree from which every directory named in the
directory-exclusion set (with all below it) and every file named in the
file-exclusion set has been deleted; a directory named `.git` is among the
deleted ones even with no `-exclude`, and removing it with its subtree from a
listing leaves the output as it was. -/
theorem exclusion_end_to_end (maxDepth : Int) (useColor : Bool)
    (excludeDirs excludeFiles : List String) (root : Node) (pfx : String) (depth : Int) :
    generateTree (initializeExclusions (setupFlags maxDepth useColor excludeDirs excludeFiles))
        (deleteExcluded
          (initializeExclusions (setupFlags maxDepth useColor excludeDirs excludeFiles)) root)
        pfx depth =
      generateTree (initializeExclusions (setupFlags maxDepth useColor excludeDirs excludeFiles))
        root pfx depth ∧
    (∀ readErr entries,
      namedInExclusions (initializeExclusions (setupFlags maxDepth useColor [] excludeFiles))
        (.dir ".git" readErr entries) = true) ∧
    (∀ name l₁ l₂ readErr entries,
      generateTree (initializeExclusions (setupFlags maxDepth useColor [] excludeFiles))
          (.dir name false (l₁ ++ .dir ".git" readErr entries :: l₂)) pfx depth =
        generateTree (initializeExclusions (setupFlags maxDepth useColor [] excludeFiles))
          (.dir name false (l₁ ++ l₂)) pfx depth) := by
  have hgit : ∀ readErr entries,
      namedInExclusions (initializeExclusions (setupFlags maxDepth useColor [] excludeFiles))
        (.dir ".git" readErr entries) = true := by
    intro readErr entries
    simp [namedInExclusions, Node.IsDir, Node.Name, mem_excludeDirSet, defaultDirs]
  refine ⟨generateTree_deleteExcluded _ root pfx depth, hgit, ?_⟩
  intro name l₁ l₂ readErr entries
  rw [generateTree_eq, generateTree_eq, readSortedEntries_dir, readSortedEntries_dir,
    filterEntries_eq_filter, filterEntries_eq_filter, List.filter_append, List.filter_append,
    List.filter_cons]
  have hk : keeps (initializeExclusions (setupFlags maxDepth useColor [] excludeFiles))
      (.dir ".git" readErr entries) = false := by
    simp [keeps, shouldExclude_eq, hgit]
  rw [hk]
  rfl

/-! ## C8: the exclusion policy -/

/-- C8: after `initializeExclusions`, `shouldExclude` holds of an entry exactly
when it is a directory named as one of the five default directories or one of
the `-exclude` names, or a non-directory named as one of the two default files
or one of the `-exclude-file` names; a name given only as a file exclusion does
not exclude a directory of that name, nor the other way round, and with empty
user lists exactly the defaults are excluded. -/
theorem shouldExclude_iff (maxDepth : Int) (useColor : Bool)
    (excludeDirs excludeFiles : List String) (entry : Node) :
    (shouldExclude (initializeExclusions (setupFlags maxDepth useColor excludeDirs excludeFiles))
        entry = true ↔
      (entry.IsDir = true ∧
        (entry.Name = ".git" ∨ entry.Name = "__pycache__" ∨ entry.Name = "node_modules" ∨
          entry.Name = ".idea" ∨ entry.Name = ".vscode" ∨ entry.Name ∈ excludeDirs)) ∨
      (entry.IsDir = false ∧
        (entry.Name = ".DS_Store" ∨ entry.Name = ".gitignore" ∨ entry.Name ∈ excludeFiles))) ∧
    (entry.IsDir = true → entry.Name ∉ defaultDirs → entry.Name ∉ excludeDirs →
      shouldExclude (initializeExclusions (setupFlags maxDepth useColor excludeDirs excludeFiles))
        entry = false) ∧
    (entry.IsDir = false → entry.Name ∉ defaultFiles → entry.Name ∉ excludeFiles →
      shouldExclude (initializeExclusions (setupFlags maxDepth useColor excludeDirs excludeFiles))
        entry = false) ∧
    (shouldExclude (initializeExclusions (setupFlags maxDepth useColor [] [])) entry = true ↔
      (entry.IsDir = true ∧ entry.Name ∈ defaultDirs) ∨
      (entry.IsDir = false ∧ entry.Name ∈ defaultFiles)) := by
  refine ⟨?_, ?_, ?_, ?_⟩
  · unfold shouldExclude
    cases hd : entry.IsDir
    · simp [mem_excludeFileSet, setupFlags, defaultFiles, or_assoc]
    · simp [mem_excludeDirSet, setupFlags, defaultDirs, or_assoc]
  · intro hd h1 h2
    unfold shouldExclude
    simp [hd, mem_excludeDirSet, setupFlags, h1, h2]
  · intro hd h1 h2
    unfold shouldExclude
    simp [hd, mem_excludeFileSet, setupFlags, h1, h2]
  · unfold shouldExclude
    cases hd : entry.IsDir
    · simp [mem_excludeFileSet, setupFlags]
    · simp [mem_excludeDirSet, setupFlags]

theorem shouldExclude_iff_witness :
    shouldExclude (initializeExclusions (setupFlags (-1) false [] ["build"]))
        (.dir "build" false []) = false ∧
    shouldExclude (initializeExclusions (setupFlags (-1) false ["build"] []))
        (.file "build") = false :=
  ⟨(shouldExclude_iff (-1) false [] ["build"] (.dir "build" false [])).2.1 rfl
      (by decide) (by decide),
    (shouldExclude_iff (-1) false ["build"] [] (.file "build")).2.2.1 rfl
      (by decide) (by decide)⟩

/-! ## C9: filtering -/

/-- C9: `filterEntries` returns exactly the entries whose name is neither `.`
nor `..` and for which `shouldExclude` is false, in their original relative
order; whatever the exclusion sets, no entry named `.` or `..` is in the
result. -/
theorem filterEntries_spec (c : Config) (entries : List Node) :
    filterEntries c entries =
      entries.filter (fun e => decide (e.Name ≠ "." ∧ e.Name ≠ "..") && !shouldExclude c e) ∧
    (filterEntries c entries).Sublist entries ∧
    (∀ e, e ∈ filterEntries c entries ↔
      e ∈ entries ∧ e.Name ≠ "." ∧ e.Name ≠ ".." ∧ shouldExclude c e = false) ∧
    (∀ e ∈ filterEntries c entries, e.Name ≠ "." ∧ e.Name ≠ "..") := by
  have h1 : filterEntries c entries =
      entries.filter (fun e => decide (e.Name ≠ "." ∧ e.Name ≠ "..") && !shouldExclude c e) := by
    rw [filterEntries_eq_filter]
    apply List.filter_congr
    intro e _
    simp [keeps]
  have h3 : ∀ e, e ∈ filterEntries c entries ↔
      e ∈ entries ∧ e.Name ≠ "." ∧ e.Name ≠ ".." ∧ shouldExclude c e = false := by
    intro e
    rw [h1, List.mem_filter]
    simp [and_assoc]
  refine ⟨h1, ?_, h3, fun e he => ⟨((h3 e).1 he).2.1, ((h3 e).1 he).2.2.1⟩⟩
  rw [h1]
  exact List.filter_sublist _

/-! ## C10: line formatting -/

theorem colorBlue_length : colorBlue.length = 7 := by decide

theorem colorNone_length : colorNone.length = 4 := by decide

/-- C10: `printEntry` produces the one line `prefix + connector + name + newline`
with connector `├── ` when `isLast` is false and `└── ` when it is true; the
name is wrapped in `ESC[0;34m` and `ESC[0m` if and only if color is enabled and
the entry is a directory; prefix and connector are never colored, and the line
has one newline more than the prefix and the name hold. -/
theorem printEntry_format (c : Config) (entry : Node) (pfx : String) (isLast : Bool) :
    printEntry c entry pfx isLast =
      pfx ++ (if isLast then "└── " else "├── ") ++
        (if c.useColor = true ∧ entry.IsDir = true then
          "\x1b[0;34m" ++ entry.Name ++ "\x1b[0m"
        else entry.Name) ++ "\n" ∧
    (printEntry c entry pfx isLast =
        pfx ++ (if isLast then "└── " else "├── ") ++
          ("\x1b[0;34m" ++ entry.Name ++ "\x1b[0m") ++ "\n" ↔
      c.useColor = true ∧ entry.IsDir = true) ∧
    (printEntry c entry pfx isLast =
        pfx ++ (if isLast then "└── " else "├── ") ++ entry.Name ++ "\n" ↔
      ¬ (c.useColor = true ∧ entry.IsDir = true)) ∧
    newlines (printEntry c entry pfx isLast) = newlines pfx + newlines entry.Name + 1 := by
  have h0 : printEntry c entry pfx isLast =
      pfx ++ (if isLast then "└── " else "├── ") ++
        (if c.useColor = true ∧ entry.IsDir = true then
          "\x1b[0;34m" ++ entry.Name ++ "\x1b[0m"
        else entry.Name) ++ "\n" := by
    unfold printEntry
    cases c.useColor <;> cases entry.IsDir <;> simp [colorBlue, colorNone]
  have hlen : (pfx ++ (if isLast then "└── " else "├── ") ++
        ("\x1b[0;34m" ++ entry.Name ++ "\x1b[0m") ++ "\n").length ≠
      (pfx ++ (if isLast then "└── " else "├── ") ++ entry.Name ++ "\n").length := by
    simp only [String.length_append]
    have h1 : ("\x1b[0;34m" : String).length = 7 := by decide
    have h2 : ("\x1b[0m" : String).length = 4 := by decide
    omega
  refine ⟨h0, ?_, ?_, ?_⟩
  · constructor
    · intro h
      by_contra hc
      rw [h0, if_neg hc] at h
      exact hlen (congrArg String.length h).symm
    · intro hc
      rw [h0, if_pos hc]
  · constructor
    · intro h hc
      rw [h0, if_pos hc] at h
      exact hlen (congrArg String.length h)
    · intro hc
      rw [h0, if_neg hc]
  · rw [printEntry_eq, newlines_append, newlines_append, newlines_append,
      newlines_displayName]
    have h2 : newlines (if isLast then "└── " else "├── ") = 0 := by cases isLast <;> decide
    have h3 : newlines "\n" = 1 := by decide
    omega

/-! ## C11: unreadable directories -/

mutual
/-- The tree in which every directory that cannot be read has become a readable
directory without entries, at every level. -/
def unreadableAsEmpty : Node → Node
  | .file name => .file name
  | .dir name readErr entries =>
    if readErr then .dir name false [] else .dir name false (unreadableAsEmptyList entries)
/-- The entries of a directory, each with its unreadable directories emptied. -/
def unreadableAsEmptyList : List Node → List Node
  | [] => []
  | e :: es => unreadableAsEmpty e :: unreadableAsEmptyList es
end

theorem unreadableAsEmptyList_eq_map (l : List Node) :
    unreadableAsEmptyList l = l.map unreadableAsEmpty := by
  induction l with
  | nil => simp [unreadableAsEmptyList]
  | cons x xs ih => simp [unreadableAsEmptyList, ih]

theorem unreadableAsEmpty_Name (e : Node) : (unreadableAsEmpty e).Name = e.Name := by
  cases e with
  | file n => simp [unreadableAsEmpty, Node.Name]
  | dir n err es => cases err <;> simp [unreadableAsEmpty, Node.Name]

theorem unreadableAsEmpty_IsDir (e : Node) : (unreadableAsEmpty e).IsDir = e.IsDir := by
  cases e with
  | file n => simp [unreadableAsEmpty, Node.IsDir]
  | dir n err es => cases err <;> simp [unreadableAsEmpty, Node.IsDir]

theorem generateTree_readErr (c : Config) (name : String) (entries : List Node) (pfx : String)
    (depth : Int) : generateTree c (.dir name true entries) pfx depth = "" := by
  rw [generateTree_eq, readSortedEntries_readErr]
  simp [renderGroup]

/-- Rendering does not tell an unreadable directory from an empty one. -/
theorem generateTree_unreadableAsEmpty (c : Config) (path : Node) :
    ∀ (pfx : String) (depth : Int),
      generateTree c (unreadableAsEmpty path) pfx depth = generateTree c path pfx depth := by
  induction path using Node.induction with
  | hfile name =>
    intro pfx depth
    simp [unreadableAsEmpty]
  | hdir name readErr entries ih =>
    intro pfx depth
    cases readErr with
    | true =>
      simp only [unreadableAsEmpty, if_true]
      rw [generateTree_readErr, generateTree_no_entries]
    | false =>
      simp only [unreadableAsEmpty, Bool.false_eq_true, if_false, unreadableAsEmptyList_eq_map]
      rw [generateTree_eq, generateTree_eq, readSortedEntries_dir, readSortedEntries_dir,
        filterEntries_map c _ unreadableAsEmpty_Name unreadableAsEmpty_IsDir,
        sortEntries_map _ unreadableAsEmpty_Name unreadableAsEmpty_IsDir]
      split
      · rfl
      · apply renderGroup_map
        intro e he isLast
        have hmem : e ∈ entries :=
          @mem_of_mem_readSortedEntries c name false entries e
            (by rw [readSortedEntries_dir]; exact he)
        unfold entryBlock
        rw [printEntry_congr c c rfl (unreadableAsEmpty_Name e) (unreadableAsEmpty_IsDir e),
          unreadableAsEmpty_IsDir, ih e hmem]

/-- C11: a directory whose listing cannot be read is rendered as an empty one:
`readSortedEntries` returns no entry for it, its block in the output of its
parent is its own line and nothing else, and the output for any tree is the
output for the tree in which the unreadable directories are empty, so the lines
of all siblings and ancestors are the same; `generateTree` is a total function
returning text, there is no error result. -/
theorem fail_soft_traversal (c : Config) :
    (∀ name entries, readSortedEntries c (.dir name true entries) = []) ∧
    (∀ name entries pfx depth, generateTree c (.dir name true entries) pfx depth = "" ∧
      generateTree c (.dir name false []) pfx depth = "") ∧
    (∀ name entries pfx depth isLast,
      entryBlock c pfx depth (.dir name true entries) isLast =
        printEntry c (.dir name true entries) pfx isLast ∧
      entryBlock c pfx depth (.dir name true entries) isLast =
        entryBlock c pfx depth (.dir name false []) isLast) ∧
    (∀ root pfx depth,
      generateTree c (unreadableAsEmpty root) pfx depth = generateTree c root pfx depth) ∧
    (∀ parent l₁ l₂ name entries pfx depth,
      generateTree c (.dir parent false (l₁ ++ .dir name true entries :: l₂)) pfx depth =
        generateTree c (.dir parent false (l₁ ++ .dir name false [] :: l₂)) pfx depth) := by
  refine ⟨fun name entries => rfl, ?_, ?_, generateTree_unreadableAsEmpty c, ?_⟩
  · intro name entries pfx depth
    exact ⟨generateTree_readErr c name entries pfx depth,
      generateTree_no_entries c name false pfx depth⟩
  · intro name entries pfx depth isLast
    unfold entryBlock
    rw [generateTree_readErr, generateTree_no_entries]
    simp [Node.IsDir, append_empty, printEntry, Node.Name]
  · intro parent l₁ l₂ name entries pfx depth
    rw [← generateTree_unreadableAsEmpty c (.dir parent false (l₁ ++ .dir name true entries :: l₂)),
      ← generateTree_unreadableAsEmpty c (.dir parent false (l₁ ++ .dir name false [] :: l₂))]
    simp [unreadableAsEmpty, unreadableAsEmptyList_eq_map, unreadableAsEmptyList]

/-! ## C12: independence of the raw order -/

/-- The pair the sort looks at: the is-directory flag and the name. -/
def entryKey (e : Node) : Bool × String :=
  (e.IsDir, e.Name)

mutual
/-- Whether every listing of the tree has pairwise distinct (is-directory, name)
pairs, as the listings of a real directory have. -/
def distinctKeys : Node → Bool
  | .file _ => true
  | .dir _ _ entries => decide ((entries.map entryKey).Nodup) && distinctKeysList entries
/-- The same for each entry of a listing. -/
def distinctKeysList : List Node → Bool
  | [] => true
  | e :: es => distinctKeys e && distinctKeysList es
end

/-- Two trees that differ only in the order of their raw listings: a directory
lists a permutation of entries that are, one by one, reorderings of the entries
of the other. -/
inductive Reordered : Node → Node → Prop
  | file (name : String) : Reordered (.file name) (.file name)
  | dir (name : String) (readErr : Bool) (entries mid entries' : List Node) :
      entries.Perm mid → List.Forall₂ Reordered mid entries' →
      Reordered (.dir name readErr entries) (.dir name readErr entries')

theorem entryKey_eq_of_ordered {a b : Node} (hab : entryOrdered a b) (hba : entryOrdered b a) :
    entryKey a = entryKey b := by
  unfold entryOrdered at hab hba
  have hd : a.IsDir = b.IsDir := by
    cases ha : a.IsDir <;> cases hb : b.IsDir <;> simp [ha, hb] at hab hba ⊢
  have hn : a.Name = b.Name := le_antisymm (hab.2 hd) (hba.2 hd.symm)
  simp [entryKey, hd, hn]

theorem sortEntries_eq_of_perm {l₁ l₂ : List Node} (hp : l₁.Perm l₂)
    (hnd : (l₁.map entryKey).Nodup) : sortEntries l₁ = sortEntries l₂ := by
  have hanti : ∀ a b, a ∈ sortEntries l₁ → b ∈ sortEntries l₂ →
      entryOrdered a b → entryOrdered b a → a = b := by
    intro a b ha hb hab hba
    have ha' : a ∈ l₁ := (sortEntries_perm l₁).mem_iff.1 ha
    have hb' : b ∈ l₁ := hp.mem_iff.2 ((sortEntries_perm l₂).mem_iff.1 hb)
    exact List.inj_on_of_nodup_map hnd ha' hb' (entryKey_eq_of_ordered hab hba)
  exact List.Perm.eq_of_sorted hanti (sortEntries_pairwise l₁) (sortEntries_pairwise l₂)
    ((sortEntries_perm l₁).trans (hp.trans (sortEntries_perm l₂).symm))

theorem readSortedEntries_eq_of_perm (c : Config) (name : String) {raw₁ raw₂ : List Node}
    (hp : raw₁.Perm raw₂) (hnd : (raw₁.map entryKey).Nodup) :
    readSortedEntries c (.dir name false raw₁) = readSortedEntries c (.dir name false raw₂) := by
  rw [readSortedEntries_dir, readSortedEntries_dir, filterEntries_eq_filter,
    filterEntries_eq_filter]
  apply sortEntries_eq_of_perm (hp.filter _)
  exact hnd.sublist ((List.filter_sublist raw₁).map entryKey)

theorem Reordered.key {a b : Node} (h : Reordered a b) :
    a.Name = b.Name ∧ a.IsDir = b.IsDir := by
  cases h <;> exact ⟨rfl, rfl⟩

theorem forall₂_filter_keeps (c : Config) {l l' : List Node}
    (h : List.Forall₂ Reordered l l') :
    List.Forall₂ Reordered (l.filter (keeps c)) (l'.filter (keeps c)) := by
  induction h with
  | nil => exact List.Forall₂.nil
  | @cons a b l l' hab _ ih =>
    rw [List.filter_cons, List.filter_cons, keeps_congr c hab.key.1 hab.key.2]
    split
    · exact List.Forall₂.cons hab ih
    · exact ih

theorem forall₂_insertSorted {x x' : Node} (hx : Reordered x x') {l l' : List Node}
    (h : List.Forall₂ Reordered l l') :
    List.Forall₂ Reordered (insertSorted entryLess x l) (insertSorted entryLess x' l') := by
  induction h with
  | nil => exact List.Forall₂.cons hx List.Forall₂.nil
  | @cons a b l l' hab hl ih =>
    unfold insertSorted
    rw [entryLess_congr hx.key.1 hx.key.2 hab.key.1 hab.key.2]
    split
    · exact List.Forall₂.cons hx (List.Forall₂.cons hab hl)
    · exact List.Forall₂.cons hab ih

theorem forall₂_sortEntries {l l' : List Node} (h : List.Forall₂ Reordered l l') :
    List.Forall₂ Reordered (sortEntries l) (sortEntries l') := by
  unfold sortEntries
  induction h with
  | nil => exact List.Forall₂.nil
  | @cons a b l l' hab _ ih => exact forall₂_insertSorted hab ih

theorem renderGroup_forall₂ (c : Config) (pfx : String) (depth : Int) {l l' : List Node}
    (h : List.Forall₂ Reordered l l')
    (hb : ∀ e ∈ l, ∀ e', Reordered e e' → ∀ isLast,
      entryBlock c pfx depth e isLast = entryBlock c pfx depth e' isLast) :
    renderGroup c pfx depth l = renderGroup c pfx depth l' := by
  induction h with
  | nil => rfl
  | @cons a b l l' hab hl ih =>
    have hlen : l.isEmpty = l'.isEmpty := by
      have := hl.length_eq
      cases l <;> cases l' <;> simp at this ⊢
    simp only [renderGroup]
    rw [ih (fun e he => hb e (List.mem_cons_of_mem _ he)),
      hb a (List.mem_cons_self _ _) b hab, hlen]

theorem distinctKeys_of_mem {l : List Node} (h : distinctKeysList l = true) {e : Node}
    (he : e ∈ l) : distinctKeys e = true := by
  induction l with
  | nil => simp at he
  | cons x xs ih =>
    simp only [distinctKeysList, Bool.and_eq_true] at h
    rcases List.mem_cons.1 he with rfl | he
    · exact h.1
    · exact ih h.2 he

/-- The output is the same for two trees that differ only in the order of their
raw listings. -/
theorem generateTree_reordered (c : Config) (t : Node) :
    distinctKeys t = true → ∀ t', Reordered t t' → ∀ (pfx : String) (depth : Int),
      generateTree c t pfx depth = generateTree c t' pfx depth := by
  induction t using Node.induction with
  | hfile name =>
    intro _ t' h pfx depth
    cases h
    rfl
  | hdir name readErr entries ih =>
    intro hdist t' h pfx depth
    cases h with
    | dir _ _ _ mid entries' hp hf =>
      simp only [distinctKeys, Bool.and_eq_true, decide_eq_true_eq] at hdist
      cases readErr with
      | true => rw [generateTree_readErr, generateTree_readErr]
      | false =>
        rw [generateTree_eq, generateTree_eq, readSortedEntries_eq_of_perm c name hp hdist.1]
        split
        · rfl
        · rw [readSortedEntries_dir, readSortedEntries_dir, filterEntries_eq_filter,
            filterEntries_eq_filter]
          apply renderGroup_forall₂ c pfx depth (forall₂_sortEntries (forall₂_filter_keeps c hf))
          intro e he e' hee' isLast
          have hmid : e ∈ mid :=
            (List.mem_filter.1 ((sortEntries_perm _).mem_iff.1 he)).1
          have hmem : e ∈ entries := hp.mem_iff.2 hmid
          unfold entryBlock
          rw [printEntry_congr c c rfl hee'.key.1 hee'.key.2, hee'.key.2,
            ih e hmem (distinctKeys_of_mem hdist.2 hmem) e' hee']

/-- C12: the order `readSortedEntries` returns does not depend on the order of
the raw listing: two listings that are permutations of each other, with pairwise
distinct (is-directory, name) pairs, give the same sequence; hence two trees
that differ only in the order of their raw listings give the same output of
`generateTree` under the same configuration. -/
theorem order_independence (c : Config) :
    (∀ name raw₁ raw₂, raw₁.Perm raw₂ → (raw₁.map fun e => (e.IsDir, e.Name)).Nodup →
      readSortedEntries c (.dir name false raw₁) = readSortedEntries c (.dir name false raw₂)) ∧
    (∀ t t', distinctKeys t = true → Reordered t t' → ∀ pfx depth,
      generateTree c t pfx depth = generateTree c t' pfx depth) :=
  ⟨fun name _ _ hp hnd => readSortedEntries_eq_of_perm c name hp hnd,
    fun t t' hd h pfx depth => generateTree_reordered c t hd t' h pfx depth⟩

theorem order_independence_witness :
    readSortedEntries (initializeExclusions (setupFlags (-1) false [] []))
        (.dir "root" false [.file "z.txt", .dir "b" false [], .dir "a" false []]) =
      readSortedEntries (initializeExclusions (setupFlags (-1) false [] []))
        (.dir "root" false [.dir "b" false [], .file "z.txt", .dir "a" false []]) ∧
    generateTree (initializeExclusions (setupFlags (-1) false [] []))
        (.dir "root" false [.file "z.txt", .dir "a" false [.file "y", .file "x"]]) "" 0 =
      generateTree (initializeExclusions (setupFlags (-1) false [] []))
        (.dir "root" false [.dir "a" false [.file "x", .file "y"], .file "z.txt"]) "" 0 := by
  refine ⟨(order_independence _).1 "root" _ _ ?_ ?_, (order_independence _).2 _ _ ?_ ?_ "" 0⟩
  · exact List.Perm.swap _ _ _
  · simp [Node.IsDir, Node.Name]
  · simp [distinctKeys, distinctKeysList, entryKey, Node.IsDir, Node.Name]
  · refine Reordered.dir _ _ _ [.dir "a" false [.file "y", .file "x"], .file "z.txt"] _
      (List.Perm.swap _ _ _) ?_
    refine List.Forall₂.cons ?_ (List.Forall₂.cons (Reordered.file _) List.Forall₂.nil)
    exact Reordered.dir _ _ _ [.file "x", .file "y"] _ (List.Perm.swap _ _ _)
      (List.Forall₂.cons (Reordered.file _)
        (List.Forall₂.cons (Reordered.file _) List.Forall₂.nil))

/-! ## C13: the unbounded sentinel -/

mutual
/-- The number of levels of entries below a node: none below a file or an empty
directory; the greatest nesting depth of an entry below `node` is one less. -/
def levels : Node → Nat
  | .file _ => 0
  | .dir _ _ entries => levelsList entries
/-- The number of levels a listing spans. -/
def levelsList : List Node → Nat
  | [] => 0
  | e :: es => max (levels e + 1) (levelsList es)
end

/-- The entry `e` is reachable `k` levels below the entries of `path`: every
directory on the way can be read and every entry on the way, `e` included, is
kept by the filter. -/
inductive Reachable (c : Config) : Node → Nat → Node → Prop
  | child {path : Node} {entries : List Node} {e : Node} :
      osReadDir path = some entries → e ∈ entries → keeps c e = true →
      Reachable c path 0 e
  | deeper {path : Node} {entries : List Node} {m : Node} {k : Nat} {e : Node} :
      osReadDir path = some entries → m ∈ entries → keeps c m = true → m.IsDir = true →
      Reachable c m k e → Reachable c path (k + 1) e

theorem mem_readSortedEntries_iff (c : Config) (path e : Node) :
    e ∈ readSortedEntries c path ↔
      ∃ entries, osReadDir path = some entries ∧ e ∈ entries ∧ keeps c e = true := by
  unfold readSortedEntries
  cases h : osReadDir path with
  | none => simp
  | some entries =>
    simp only [Option.some.injEq, exists_eq_left']
    rw [(sortEntries_perm _).mem_iff, filterEntries_eq_filter, List.mem_filter]

theorem levels_lt_of_mem {l : List Node} {e : Node} (he : e ∈ l) :
    levels e + 1 ≤ levelsList l := by
  induction l with
  | nil => simp at he
  | cons x xs ih =>
    simp only [levelsList]
    rcases List.mem_cons.1 he with rfl | he
    · exact le_max_left _ _
    · exact le_trans (ih he) (le_max_right _ _)

/-- No row lies deeper than the tree. -/
theorem treeRows_depth_lt (c : Config) (path : Node) :
    ∀ (ancestors : List Bool) (d : Int) (r : Row), r ∈ treeRows c path ancestors d →
      r.depth + 1 ≤ d + levels path := by
  induction path using Node.induction with
  | hfile name =>
    intro ancestors d r hr
    rw [treeRows_eq, readSortedEntries_file] at hr
    simp [groupRows] at hr
  | hdir name readErr entries ih =>
    intro ancestors d r hr
    obtain ⟨_, l₁, e, l₂, hl, h⟩ := (mem_treeRows c _ ancestors d r).1 hr
    have hmem : e ∈ entries := mem_entries_of_readSortedEntries_eq hl
    have hlev := levels_lt_of_mem hmem
    simp only [levels]
    rcases h with h | ⟨_, h⟩
    · subst h
      simp only
      omega
    · have := ih e hmem _ _ r h
      omega

theorem treeRows_of_reachable (c : Config) {path : Node} {k : Nat} {e : Node}
    (h : Reachable c path k e) :
    ∀ (ancestors : List Bool) (d : Int),
      ∃ r ∈ treeRows (withMaxDepth c (-1)) path ancestors d, r.entry = e ∧ r.depth = d + k := by
  have hnb : ∀ d : Int, ¬ ((withMaxDepth c (-1)).maxDepth ≠ -1 ∧
      d > (withMaxDepth c (-1)).maxDepth) := by
    intro d
    simp [withMaxDepth]
  induction h with
  | @child path entries e hread he hk =>
    intro ancestors d
    have hmem : e ∈ readSortedEntries (withMaxDepth c (-1)) path :=
      (mem_readSortedEntries_iff _ path e).2 ⟨entries, hread, he, hk⟩
    obtain ⟨l₁, l₂, hl⟩ := List.append_of_mem hmem
    exact ⟨Row.mk d ancestors e l₂.isEmpty,
      (mem_treeRows _ path ancestors d _).2 ⟨hnb d, l₁, e, l₂, hl, Or.inl rfl⟩, rfl, by simp⟩
  | @deeper path entries m k e hread hm hk hd _ ih =>
    intro ancestors d
    have hmem : m ∈ readSortedEntries (withMaxDepth c (-1)) path :=
      (mem_readSortedEntries_iff _ path m).2 ⟨entries, hread, hm, hk⟩
    obtain ⟨l₁, l₂, hl⟩ := List.append_of_mem hmem
    obtain ⟨r, hr, hre, hrd⟩ := ih (ancestors ++ [l₂.isEmpty]) (d + 1)
    refine ⟨r, (mem_treeRows _ path ancestors d _).2 ⟨hnb d, l₁, m, l₂, hl, Or.inr ⟨hd, hr⟩⟩,
      hre, ?_⟩
    rw [hrd]
    push_cast
    omega

theorem reachable_of_treeRows (c : Config) (path : Node) :
    ∀ (ancestors : List Bool) (d : Int) (r : Row), r ∈ treeRows c path ancestors d →
      ∃ k : Nat, r.depth = d + k ∧ Reachable c path k r.entry := by
  induction path using Node.induction with
  | hfile name =>
    intro ancestors d r hr
    rw [treeRows_eq, readSortedEntries_file] at hr
    simp [groupRows] at hr
  | hdir name readErr entries ih =>
    intro ancestors d r hr
    obtain ⟨_, l₁, e, l₂, hl, h⟩ := (mem_treeRows c _ ancestors d r).1 hr
    obtain ⟨es, hread, hes, hk⟩ :=
      (mem_readSortedEntries_iff c _ e).1 (mem_of_readSortedEntries_eq hl)
    rcases h with h | ⟨hd, h⟩
    · subst h
      exact ⟨0, by simp, Reachable.child hread hes hk⟩
    · obtain ⟨k, h1, h2⟩ := ih e (mem_entries_of_readSortedEntries_eq hl) _ _ r h
      refine ⟨k + 1, ?_, Reachable.deeper hread hes hk hd h2⟩
      rw [h1]
      push_cast
      omega

theorem Reachable.of_withMaxDepth {c : Config} {m : Int} {path : Node} {k : Nat} {e : Node}
    (h : Reachable (withMaxDepth c m) path k e) : Reachable c path k e := by
  induction h with
  | child hread he hk => exact Reachable.child hread he hk
  | deeper hread hm hk hd _ ih => exact Reachable.deeper hread hm hk hd ih

theorem generateTree_eq_unbounded (c : Config) (root : Node) (D : Nat)
    (h : ∀ r ∈ treeRows (withMaxDepth c (-1)) root [] 0, r.depth ≤ (D : Int)) (pfx : String) :
    generateTree (withMaxDepth c D) root pfx 0 =
      generateTree (withMaxDepth c (-1)) root pfx 0 := by
  rw [generateTree_eq_rows_root, generateTree_eq_rows_root, treeRows_depth_bound,
    List.filter_eq_self.2 (fun r hr => by simpa using h r hr)]
  rfl

/-- C13: with max-depth -1 nothing is pruned: the rows of `generateTree root ""
0` are exactly the entries reachable below the root through readable
directories and kept entries, each at its nesting depth, and the output is the
output under any bound `D` that is at least the greatest nesting depth of the
tree (or just of the shown rows). -/
theorem unbounded_sentinel (c : Config) (root : Node) :
    (∀ k e, Reachable c root k e →
      ∃ r ∈ treeRows (withMaxDepth c (-1)) root [] 0, r.entry = e ∧ r.depth = k) ∧
    (∀ r ∈ treeRows (withMaxDepth c (-1)) root [] 0,
      ∃ k : Nat, r.depth = k ∧ Reachable c root k r.entry) ∧
    (∀ pfx, generateTree (withMaxDepth c (-1)) root pfx 0 =
      String.join ((treeRows (withMaxDepth c (-1)) root [] 0).map (Row.text c pfx))) ∧
    (∀ D : Nat, levels root ≤ D + 1 → ∀ pfx,
      generateTree (withMaxDepth c D) root pfx 0 =
        generateTree (withMaxDepth c (-1)) root pfx 0) ∧
    (∀ D : Nat, (∀ r ∈ treeRows (withMaxDepth c (-1)) root [] 0, r.depth ≤ (D : Int)) → ∀ pfx,
      generateTree (withMaxDepth c D) root pfx 0 =
        generateTree (withMaxDepth c (-1)) root pfx 0) := by
  refine ⟨?_, ?_, fun pfx => generateTree_eq_rows_root _ _ _ _, ?_,
    fun D h pfx => generateTree_eq_unbounded c root D h pfx⟩
  · intro k e h
    obtain ⟨r, hr, h1, h2⟩ := treeRows_of_reachable c h [] 0
    exact ⟨r, hr, h1, by simpa using h2⟩
  · intro r hr
    obtain ⟨k, h1, h2⟩ := reachable_of_treeRows (withMaxDepth c (-1)) root [] 0 r hr
    exact ⟨k, by simpa using h1, h2.of_withMaxDepth⟩
  · intro D hD pfx
    apply generateTree_eq_unbounded c root D
    intro r hr
    have := treeRows_depth_lt _ root [] 0 r hr
    omega

theorem unbounded_sentinel_witness :
    generateTree (withMaxDepth (initializeExclusions (setupFlags 0 false [] [])) (1 : Nat))
        (.dir "root" false [.dir "a" false [.file "x.txt"], .file "z.txt"]) "" 0 =
      generateTree (withMaxDepth (initializeExclusions (setupFlags 0 false [] [])) (-1))
        (.dir "root" false [.dir "a" false [.file "x.txt"], .file "z.txt"]) "" 0 :=
  (unbounded_sentinel _ _).2.2.2.1 1 (by decide) ""

/-! ## C14: the two output sinks -/

/-- The part of the outside world `printTree` and `saveToFile` touch: the text
written to standard output so far, the contents of the files, and which paths
`os.WriteFile` can write. -/
structure World where
  stdout : String
  files : List (String × String)
  writable : String → Bool

/-- The library call `fmt.Println s`: the operand, then a newline, on standard
output. -/
def fmtPrintln (w : World) (s : String) : World :=
  { w with stdout := w.stdout ++ s ++ "\n" }

/-- The library call `os.WriteFile name data 0644`: on success the file holds
exactly `data`; `none` stands for a non-nil error. -/
def osWriteFile (w : World) (name data : String) : Option World :=
  if w.writable name then
    some { w with files := (name, data) :: w.files.filter fun f => f.1 ≠ name }
  else none

/-- Reading a file back. -/
def readFile (w : World) (name : String) : Option String :=
  (w.files.find? fun f => f.1 = name).map Prod.snd

/-- The function `printTree`. -/
def printTree (w : World) (tree : String) : World :=
  fmtPrintln w tree

/-- The function `saveToFile`: `Except.error` is the exit through `log.Fatal`,
with the world as it is left. -/
def saveToFile (w : World) (tree : String) (outputFile : String) : Except World World :=
  match osWriteFile w outputFile tree with
  | none => .error w
  | some w' => .ok w'

/-- C14: when `saveToFile` succeeds after `printTree`, the file read back holds
exactly the tree text `t`, and what `printTree` added to standard output is `t`
followed by one newline: the printed text is the content of the file plus that
single trailing newline. -/
theorem output_round_trip (w : World) (t outputFile : String) (w' : World)
    (h : saveToFile (printTree w t) t outputFile = .ok w') :
    readFile w' outputFile = some t ∧
    (printTree w t).stdout = w.stdout ++ t ++ "\n" ∧
    w'.stdout = w.stdout ++ t ++ "\n" ∧
    (∀ s, readFile w' outputFile = some s → w'.stdout = w.stdout ++ s ++ "\n") := by
  have hw : w' = { printTree w t with
      files := (outputFile, t) :: (printTree w t).files.filter fun f => f.1 ≠ outputFile } := by
    unfold saveToFile osWriteFile at h
    split at h
    · simp at h
    · rename_i w'' hsome
      split at hsome
      · simp only [Option.some.injEq] at hsome
        simp only [Except.ok.injEq] at h
        rw [← h, ← hsome]
      · simp at hsome
  have hread : readFile w' outputFile = some t := by
    rw [hw]
    simp [readFile]
  refine ⟨hread, rfl, ?_, ?_⟩
  · rw [hw]
    rfl
  · intro s hs
    rw [hread] at hs
    simp only [Option.some.injEq] at hs
    rw [← hs, hw]
    rfl

theorem output_round_trip_witness :
    readFile
        { stdout := "├── a\n└── z.txt\n\n", files := [("out.txt", "├── a\n└── z.txt\n")],
          writable := fun _ => true }
        "out.txt" = some "├── a\n└── z.txt\n" :=
  (output_round_trip { stdout := "", files := [("out.txt", "old")], writable := fun _ => true }
    "├── a\n└── z.txt\n" "out.txt"
    { stdout := "├── a\n└── z.txt\n\n", files := [("out.txt", "├── a\n└── z.txt\n")],
      writable := fun _ => true }
    (by simp [saveToFile, osWriteFile, printTree, fmtPrintln])).1

/-! ## C17: the comparator -/

/-- C17: the less-function of `sortEntries` is a strict weak order: irreflexive,
transitive, with a transitive incomparability; two entries are incomparable
exactly when they agree in the is-directory flag and in the name, so on a
listing with pairwise distinct (is-directory, name) pairs it is a strict total
order. -/
theorem entryLess_strict_weak_order :
    (∀ a, entryLess a a = false) ∧
    (∀ a b d, entryLess a b = true → entryLess b d = true → entryLess a d = true) ∧
    (∀ a b, (entryLess a b = false ∧ entryLess b a = false) ↔
      (a.IsDir = b.IsDir ∧ a.Name = b.Name)) ∧
    (∀ a b d, entryLess a b = false ∧ entryLess b a = false →
      entryLess b d = false ∧ entryLess d b = false →
      entryLess a d = false ∧ entryLess d a = false) ∧
    (∀ l : List Node, (l.map fun e => (e.IsDir, e.Name)).Nodup → ∀ a ∈ l, ∀ b ∈ l,
      (a = b ∧ entryLess a b = false ∧ entryLess b a = false) ∨
      (a ≠ b ∧ entryLess a b = true ∧ entryLess b a = false) ∨
      (a ≠ b ∧ entryLess b a = true ∧ entryLess a b = false)) := by
  have hirr : ∀ a, entryLess a a = false := by
    intro a
    unfold entryLess
    cases a.IsDir <;> simp
  have hinc : ∀ a b, (entryLess a b = false ∧ entryLess b a = false) ↔
      (a.IsDir = b.IsDir ∧ a.Name = b.Name) := by
    intro a b
    rw [entryLess_eq_false_iff, entryLess_eq_false_iff]
    constructor
    · rintro ⟨hba, hab⟩
      have h := entryKey_eq_of_ordered hab hba
      simp only [entryKey, Prod.mk.injEq] at h
      exact h
    · rintro ⟨hd, hn⟩
      unfold entryOrdered
      rw [hd, hn]
      simp
  refine ⟨hirr, entryLess_trans, hinc, ?_, ?_⟩
  · intro a b d hab hbd
    have h1 := (hinc a b).1 hab
    have h2 := (hinc b d).1 hbd
    exact (hinc a d).2 ⟨h1.1.trans h2.1, h1.2.trans h2.2⟩
  · intro l hnd a ha b hb
    by_cases hab : a = b
    · subst hab
      exact Or.inl ⟨rfl, hirr a, hirr a⟩
    · have hkey : ¬ (a.IsDir = b.IsDir ∧ a.Name = b.Name) := by
        intro h
        apply hab
        apply List.inj_on_of_nodup_map hnd ha hb
        simp [h.1, h.2]
      cases h1 : entryLess a b
      · cases h2 : entryLess b a
        · exact absurd ((hinc a b).1 ⟨h1, h2⟩) hkey
        · exact Or.inr (Or.inr ⟨hab, rfl, rfl⟩)
      · exact Or.inr (Or.inl ⟨hab, rfl, entryLess_asymm a b h1⟩)

/-! ## C18: a negative max-depth other than -1 -/

/-- C18: with a max-depth below -1 the root call is already past the bound and
`generateTree root "" 0` is empty, whatever the tree; with exactly -1 no call is
ever pruned. -/
theorem negative_max_depth (c : Config) (m : Int) (hm : m < -1) (root : Node) :
    generateTree (withMaxDepth c m) root "" 0 = "" ∧
    (∀ pfx depth, 0 ≤ depth → generateTree (withMaxDepth c m) root pfx depth = "") ∧
    (∀ pfx depth, generateTree (withMaxDepth c (-1)) root pfx depth =
      renderGroup (withMaxDepth c (-1)) pfx depth (readSortedEntries c root)) := by
  have h : ∀ pfx depth, 0 ≤ depth → generateTree (withMaxDepth c m) root pfx depth = "" := by
    intro pfx depth hd
    rw [generateTree_eq, if_pos]
    simp only [withMaxDepth]
    omega
  refine ⟨h "" 0 (le_refl 0), h, ?_⟩
  intro pfx depth
  rw [generateTree_eq, if_neg]
  · rfl
  · simp [withMaxDepth]

theorem negative_max_depth_witness :
    generateTree (withMaxDepth (initializeExclusions (setupFlags 0 false [] [])) (-2))
        (.dir "root" false [.dir "a" false [.file "x.txt"], .file "z.txt"]) "" 0 = "" :=
  (negative_max_depth _ (-2) (by decide)
    (.dir "root" false [.dir "a" false [.file "x.txt"], .file "z.txt"])).1

/-! ## C15: pre-order rendering -/

/-- A node of the filtered, sorted and depth-pruned tree: a shown entry, whether
it is the last sibling of its group, and the nodes shown below it. -/
inductive Shown where
  | node (entry : Node) (isLast : Bool) (children : List Shown) : Shown

/-- The filtered, sorted and depth-pruned tree below `path`: nothing past the
depth bound; otherwise one node per filtered entry, in sorted order, a directory
carrying the tree below it one level deeper. -/
def shownBelow (c : Config) (path : Node) (depth : Int) : List Shown :=
  if c.maxDepth ≠ -1 ∧ depth > c.maxDepth then []
  else
    let entries := readSortedEntries c path
    entries.attach.enum.map fun ie =>
      Shown.node ie.2.1 (decide (ie.1 + 1 = entries.length))
        (if ie.2.1.IsDir then shownBelow c ie.2.1 (depth + 1) else [])
termination_by sizeOf path
decreasing_by exact sizeOf_lt_of_mem_readSortedEntries c path ie.2.1 ie.2.2

mutual
/-- The depth-first pre-order flattening of a shown node into formatted lines:
the line of the entry, then the lines of what is shown below it, under the
derived prefix. -/
def preorder (c : Config) (pfx : String) : Shown → List String
  | .node entry isLast children =>
    printEntry c entry pfx isLast :: preorderList c (getNextPrefix pfx isLast) children
/-- The flattening of a list of siblings, one after the other. -/
def preorderList (c : Config) (pfx : String) : List Shown → List String
  | [] => []
  | s :: rest => preorder c pfx s ++ preorderList c pfx rest
end

/-- The shown nodes of a list of sorted entries, the last of which is the last
sibling. -/
def groupShown (c : Config) (depth : Int) : List Node → List Shown
  | [] => []
  | entry :: rest =>
    Shown.node entry rest.isEmpty (if entry.IsDir then shownBelow c entry (depth + 1) else []) ::
      groupShown c depth rest

theorem shownBelow_loop (c : Config) (depth : Int) (n : Nat)
    (P : Node → Prop) (l : List {x // P x}) (k : Nat) (hk : k + l.length = n) :
    ((l.enumFrom k).map fun ie =>
      Shown.node ie.2.1 (decide (ie.1 + 1 = n))
        (if ie.2.1.IsDir then shownBelow c ie.2.1 (depth + 1) else [])) =
      groupShown c depth (l.map Subtype.val) := by
  induction l generalizing k with
  | nil => simp [groupShown]
  | cons e es ih =>
    have hlen : k + 1 + es.length = n := by simp at hk; omega
    have hlast : decide (k + 1 = n) = (es.map Subtype.val).isEmpty := by
      cases es with
      | nil => simp at hlen; simp; omega
      | cons a as => simp at hlen; simp; omega
    simp only [List.enumFrom_cons, List.map_cons, groupShown]
    rw [ih (k + 1) hlen, hlast]

theorem shownBelow_eq (c : Config) (path : Node) (depth : Int) :
    shownBelow c path depth =
      if c.maxDepth ≠ -1 ∧ depth > c.maxDepth then []
      else groupShown c depth (readSortedEntries c path) := by
  rw [shownBelow]
  split
  · rfl
  · have h := shownBelow_loop c depth (readSortedEntries c path).length _
      (readSortedEntries c path).attach 0 (by simp)
    simp only [List.enum]
    rw [h]
    simp

theorem groupShown_eq_map (c : Config) (depth : Int) (n : Nat) (l : List Node) (k : Nat)
    (hk : k + l.length = n) :
    groupShown c depth l =
      (l.enumFrom k).map fun ie =>
        Shown.node ie.2 (decide (ie.1 + 1 = n))
          (if ie.2.IsDir then shownBelow c ie.2 (depth + 1) else []) := by
  induction l generalizing k with
  | nil => simp [groupShown]
  | cons e es ih =>
    have hlen : k + 1 + es.length = n := by simp at hk; omega
    have hlast : es.isEmpty = decide (k + 1 = n) := by
      cases es with
      | nil => simp at hlen; simp; omega
      | cons a as => simp at hlen; simp; omega
    simp only [List.enumFrom_cons, List.map_cons, groupShown]
    rw [← ih (k + 1) hlen, hlast]

theorem preorderList_append (c : Config) (pfx : String) (l₁ l₂ : List Shown) :
    preorderList c pfx (l₁ ++ l₂) = preorderList c pfx l₁ ++ preorderList c pfx l₂ := by
  induction l₁ with
  | nil => simp [preorderList]
  | cons x xs ih => simp [preorderList, ih]

/-- The output of `generateTree` is the concatenation of the pre-order lines of
the shown tree. -/
theorem generateTree_eq_preorder (c : Config) (path : Node) :
    ∀ (pfx : String) (depth : Int),
      generateTree c path pfx depth =
        String.join (preorderList c pfx (shownBelow c path depth)) := by
  induction path using Node.induction with
  | hfile name =>
    intro pfx depth
    rw [generateTree_file, shownBelow_eq, readSortedEntries_file]
    simp [groupShown, preorderList, join_nil]
  | hdir name readErr entries ih =>
    intro pfx depth
    rw [generateTree_eq, shownBelow_eq]
    split
    · simp [preorderList, join_nil]
    · have hsub : ∀ e ∈ readSortedEntries c (.dir name readErr entries), e ∈ entries :=
        fun e he => mem_of_mem_readSortedEntries he
      generalize readSortedEntries c (.dir name readErr entries) = l at hsub
      induction l with
      | nil => simp [renderGroup, groupShown, preorderList, join_nil]
      | cons e es ihl =>
        have he := ih e (hsub e (List.mem_cons_self _ _))
        have hes := ihl (fun x hx => hsub x (List.mem_cons_of_mem _ hx))
        simp only [renderGroup, groupShown, entryBlock, preorderList, preorder,
          List.cons_append, join_cons, join_append, hes]
        cases hd : e.IsDir
        · simp [preorderList, join_nil, append_empty, String.append_assoc]
        · simp only [if_true, String.append_assoc]
          rw [he]

/-! ### The 64-bit depth counter -/

/-- The greatest value of Go's 64-bit `int`. -/
def maxInt64 : Int := 9223372036854775807

/-- The least value of Go's 64-bit `int`. -/
def minInt64 : Int := -9223372036854775808

/-- The two's-complement wrap of an integer into the range of a 64-bit `int`. -/
def wrapInt64 (x : Int) : Int :=
  (x + 9223372036854775808) % 18446744073709551616 - 9223372036854775808

/-- The function `generateTree` with the arithmetic of Go's 64-bit `int`: the
`depth + 1` handed to the recursive call wraps. -/
def generateTreeInt64 (c : Config) (path : Node) (pfx : String) (depth : Int) : String :=
  if c.maxDepth ≠ -1 ∧ depth > c.maxDepth then ""
  else
    let entries := readSortedEntries c path
    entries.attach.enum.foldl
      (fun tree ie =>
        let isLast := decide ((ie.1 : Int) = (entries.length : Int) - 1)
        let tree := tree ++ printEntry c ie.2.1 pfx isLast
        if ie.2.1.IsDir then
          tree ++ generateTreeInt64 c ie.2.1 (getNextPrefix pfx isLast) (wrapInt64 (depth + 1))
        else tree)
      ""
termination_by sizeOf path
decreasing_by exact sizeOf_lt_of_mem_readSortedEntries c path ie.2.1 ie.2.2

/-- The text the loop builds for a list of sorted entries when `sub` renders the
contents of a directory. -/
def renderGroupWith (c : Config) (pfx : String) (sub : Node → String → String) :
    List Node → String
  | [] => ""
  | entry :: rest =>
    (printEntry c entry pfx rest.isEmpty ++
        if entry.IsDir then sub entry (getNextPrefix pfx rest.isEmpty) else "") ++
      renderGroupWith c pfx sub rest

theorem wrapInt64_eq {x : Int} (hlo : minInt64 ≤ x) (hhi : x ≤ maxInt64) : wrapInt64 x = x := by
  unfold wrapInt64
  unfold minInt64 at hlo
  unfold maxInt64 at hhi
  omega

theorem renderGroupWith_loop (c : Config) (pfx : String) (sub : Node → String → String)
    (n : Nat) (P : Node → Prop) (l : List {x // P x}) (k : Nat) (hk : k + l.length = n)
    (acc : String) :
    (l.enumFrom k).foldl
      (fun tree ie =>
        let isLast := decide ((ie.1 : Int) = (n : Int) - 1)
        let tree := tree ++ printEntry c ie.2.1 pfx isLast
        if ie.2.1.IsDir then tree ++ sub ie.2.1 (getNextPrefix pfx isLast) else tree)
      acc = acc ++ renderGroupWith c pfx sub (l.map Subtype.val) := by
  induction l generalizing k acc with
  | nil => simp [renderGroupWith]
  | cons e es ih =>
    have hlen : k + 1 + es.length = n := by simp at hk; omega
    have hlast : decide ((k : Int) = (n : Int) - 1) = (es.map Subtype.val).isEmpty := by
      cases es with
      | nil => simp at hlen; simp; omega
      | cons a as => simp at hlen; simp; omega
    simp only [List.enumFrom_cons, List.foldl_cons, List.map_cons, renderGroupWith]
    rw [ih (k + 1) hlen, hlast]
    cases hd : e.1.IsDir <;> simp [String.append_assoc]

theorem generateTreeInt64_eq (c : Config) (path : Node) (pfx : String) (depth : Int) :
    generateTreeInt64 c path pfx depth =
      if c.maxDepth ≠ -1 ∧ depth > c.maxDepth then ""
      else
        renderGroupWith c pfx
          (fun e p => generateTreeInt64 c e p (wrapInt64 (depth + 1)))
          (readSortedEntries c path) := by
  rw [generateTreeInt64]
  split
  · rfl
  · have h := renderGroupWith_loop c pfx
      (fun e p => generateTreeInt64 c e p (wrapInt64 (depth + 1)))
      (readSortedEntries c path).length _ (readSortedEntries c path).attach 0 (by simp) ""
    simp only [List.enum]
    rw [h]
    simp

theorem renderGroup_eq_with (c : Config) (pfx : String) (depth : Int) (l : List Node) :
    renderGroup c pfx depth l =
      renderGroupWith c pfx (fun e p => generateTree c e p (depth + 1)) l := by
  induction l with
  | nil => rfl
  | cons e es ih => simp only [renderGroup, renderGroupWith, entryBlock, ih]

theorem renderGroupWith_congr (c : Config) (pfx : String) (sub sub' : Node → String → String)
    (l : List Node) (h : ∀ e ∈ l, ∀ p, sub e p = sub' e p) :
    renderGroupWith c pfx sub l = renderGroupWith c pfx sub' l := by
  induction l with
  | nil => rfl
  | cons e es ih =>
    simp only [renderGroupWith]
    rw [ih (fun x hx => h x (List.mem_cons_of_mem _ hx)), h e (List.mem_cons_self _ _)]

/-- With max-depth -1 the depth plays no role, wrapped or not. -/
theorem generateTreeInt64_unbounded (c : Config) (hu : c.maxDepth = -1) (path : Node) :
    ∀ (pfx : String) (d d' : Int),
      generateTreeInt64 c path pfx d = generateTree c path pfx d' := by
  induction path using Node.induction with
  | hfile name =>
    intro pfx d d'
    rw [generateTreeInt64_eq, generateTree_eq, readSortedEntries_file]
    simp [hu, renderGroup, renderGroupWith]
  | hdir name readErr entries ih =>
    intro pfx d d'
    rw [generateTreeInt64_eq, generateTree_eq, renderGroup_eq_with]
    simp only [hu, ne_eq, not_true_eq_false, false_and, if_false]
    apply renderGroupWith_congr
    intro e he p
    exact ih e (mem_of_mem_readSortedEntries he) p _ _

/-- The wrapped and the unwrapped depth counter give the same output unless
max-depth is the greatest 64-bit value and the recursion reaches it. -/
theorem generateTreeInt64_eq_generateTree (c : Config) (hm : c.maxDepth ≤ maxInt64)
    (path : Node) :
    ∀ (pfx : String) (depth : Int), minInt64 ≤ depth → depth ≤ maxInt64 →
      (c.maxDepth ≠ maxInt64 ∨ depth + levels path ≤ maxInt64) →
      generateTreeInt64 c path pfx depth = generateTree c path pfx depth := by
  by_cases hu : c.maxDepth = -1
  · intro pfx depth _ _ _
    exact generateTreeInt64_unbounded c hu path pfx depth depth
  · induction path using Node.induction with
    | hfile name =>
      intro pfx depth _ _ _
      rw [generateTreeInt64_eq, generateTree_eq, readSortedEntries_file]
      simp [renderGroup, renderGroupWith]
    | hdir name readErr entries ih =>
      intro pfx depth hlo hhi h
      rw [generateTreeInt64_eq, generateTree_eq, renderGroup_eq_with]
      split
      · rfl
      · rename_i hb
        have hle : depth ≤ c.maxDepth := by
          by_contra hgt
          exact hb ⟨hu, by omega⟩
        apply renderGroupWith_congr
        intro e he p
        have hmem : e ∈ entries := mem_of_mem_readSortedEntries he
        have hlev := levels_lt_of_mem hmem
        simp only [levels] at h
        have hstep : depth + 1 ≤ maxInt64 := by
          rcases h with h | h
          · omega
          · omega
        have hlo' : minInt64 ≤ depth + 1 := by omega
        rw [wrapInt64_eq hlo' hstep]
        apply ih e hmem p (depth + 1) hlo' hstep
        rcases h with h | h
        · exact Or.inl h
        · right
          omega

/-- C15 (amended): for every path and prefix and every 64-bit depth, unless
max-depth is 9223372036854775807 and the depth plus the number of levels below
the path exceeds that value, `generateTree` with Go's wrapping depth counter
returns the concatenation of the formatted lines of the depth-first pre-order
flattening of the filtered, sorted and depth-pruned tree below the path; the
line of an entry is directly followed by the lines of everything shown below
it, as one block, and only then by the lines of its later siblings. -/
theorem preorder_rendering (c : Config) (path : Node) (pfx : String) (depth : Int)
    (hm : c.maxDepth ≤ 9223372036854775807)
    (hlo : -9223372036854775808 ≤ depth) (hhi : depth ≤ 9223372036854775807)
    (h : c.maxDepth ≠ 9223372036854775807 ∨ depth + levels path ≤ 9223372036854775807) :
    generateTreeInt64 c path pfx depth =
      String.join (preorderList c pfx (shownBelow c path depth)) ∧
    generateTreeInt64 c path pfx depth = generateTree c path pfx depth ∧
    shownBelow c path depth =
      (if c.maxDepth ≠ -1 ∧ depth > c.maxDepth then []
      else
        (readSortedEntries c path).enum.map fun ie =>
          Shown.node ie.2 (decide (ie.1 + 1 = (readSortedEntries c path).length))
            (if ie.2.IsDir then shownBelow c ie.2 (depth + 1) else [])) ∧
    (∀ before entry isLast children after,
      shownBelow c path depth = before ++ Shown.node entry isLast children :: after →
      generateTreeInt64 c path pfx depth =
        String.join (preorderList c pfx before) ++
          (printEntry c entry pfx isLast ++
            String.join (preorderList c (getNextPrefix pfx isLast) children)) ++
          String.join (preorderList c pfx after)) := by
  have heq : generateTreeInt64 c path pfx depth = generateTree c path pfx depth :=
    generateTreeInt64_eq_generateTree c hm path pfx depth hlo hhi h
  refine ⟨?_, heq, ?_, ?_⟩
  · rw [heq]
    exact generateTree_eq_preorder c path pfx depth
  · rw [shownBelow_eq]
    split
    · rfl
    · exact groupShown_eq_map c depth _ _ 0 (by simp)
  · intro before entry isLast children after hs
    rw [heq, generateTree_eq_preorder, hs, preorderList_append, join_append]
    simp only [preorderList, preorder, List.cons_append, join_cons, join_append,
      String.append_assoc]

theorem preorder_rendering_witness :
    generateTreeInt64 (initializeExclusions (setupFlags (-1) false [] []))
        (.dir "root" false [.file "z.txt", .dir "a" false [.file "x.txt"]]) "" 0 =
      String.join ["├── a\n", "│   └── x.txt\n", "└── z.txt\n"] := by
  have h := (preorder_rendering (initializeExclusions (setupFlags (-1) false [] []))
    (.dir "root" false [.file "z.txt", .dir "a" false [.file "x.txt"]]) "" 0
    (by decide) (by decide) (by decide) (Or.inl (by decide))).1
  rw [h]
  simp [shownBelow_eq, groupShown, preorderList, preorder, readSortedEntries, osReadDir,
    sortEntries, sortSlice, insertSorted, entryLess, filterEntries_eq_filter, keeps,
    shouldExclude, initializeExclusions, setupFlags, defaultDirs, defaultFiles, printEntry,
    getNextPrefix, Node.Name, Node.IsDir]

/-- At depth and max-depth 9223372036854775807 the depth handed to the call for
the directory `a` wraps to the least 64-bit value, which is not past the bound:
the code lists `x.txt`, while the depth-pruned tree stops at `a`. -/
theorem preorder_rendering_counterexample :
    generateTreeInt64 (initializeExclusions (setupFlags 9223372036854775807 false [] []))
        (.dir "root" false [.dir "a" false [.file "x.txt"]]) "" 9223372036854775807 =
      "└── a\n    └── x.txt\n" ∧
    String.join
        (preorderList (initializeExclusions (setupFlags 9223372036854775807 false [] [])) ""
          (shownBelow (initializeExclusions (setupFlags 9223372036854775807 false [] []))
            (.dir "root" false [.dir "a" false [.file "x.txt"]]) 9223372036854775807)) =
      "└── a\n" := by
  constructor
  · simp [generateTreeInt64_eq, renderGroupWith, wrapInt64, readSortedEntries, osReadDir,
      sortEntries, sortSlice, insertSorted, entryLess, filterEntries_eq_filter, keeps,
      shouldExclude, initializeExclusions, setupFlags, defaultDirs, defaultFiles, printEntry,
      getNextPrefix, Node.Name, Node.IsDir]
  · simp [shownBelow_eq, groupShown, preorderList, preorder, readSortedEntries, osReadDir,
      sortEntries, sortSlice, insertSorted, entryLess, filterEntries_eq_filter, keeps,
      shouldExclude, initializeExclusions, setupFlags, defaultDirs, defaultFiles, printEntry,
      getNextPrefix, Node.Name, Node.IsDir]
    decide

/-! ## C16: raising the bound only adds lines -/

theorem treeRows_sublist_succ (c : Config) (root : Node) (D : Nat) :
    (treeRows (withMaxDepth c D) root [] 0).Sublist
      (treeRows (withMaxDepth c (D + 1 : Nat)) root [] 0) := by
  have h : treeRows (withMaxDepth c D) root [] 0 =
      (treeRows (withMaxDepth c (D + 1 : Nat)) root [] 0).filter
        fun r => decide (r.depth ≤ (D : Int)) := by
    rw [treeRows_depth_bound c D, treeRows_depth_bound c (D + 1), List.filter_filter]
    apply List.filter_congr
    intro r _
    by_cases hr : r.depth ≤ (D : Int)
    · have : r.depth ≤ (D : Int) + 1 := by omega
      simp [hr, this]
    · simp [hr]
  rw [h]
  exact List.filter_sublist _

theorem treeRows_sublist_unbounded (c : Config) (root : Node) (D : Nat) :
    (treeRows (withMaxDepth c D) root [] 0).Sublist
      (treeRows (withMaxDepth c (-1)) root [] 0) := by
  rw [treeRows_depth_bound c D]
  exact List.filter_sublist _

/-- C16: for every `D ≥ 0` the lines rendered with max-depth `D` form a
subsequence of the lines rendered with max-depth `D + 1` and of the lines
rendered with max-depth -1, each shared line being the same text. -/
theorem depth_monotone (c : Config) (root : Node) (D : Nat) (pfx : String) :
    generateTree (withMaxDepth c D) root pfx 0 =
      String.join ((treeRows (withMaxDepth c D) root [] 0).map (Row.text c pfx)) ∧
    generateTree (withMaxDepth c (D + 1 : Nat)) root pfx 0 =
      String.join ((treeRows (withMaxDepth c (D + 1 : Nat)) root [] 0).map (Row.text c pfx)) ∧
    generateTree (withMaxDepth c (-1)) root pfx 0 =
      String.join ((treeRows (withMaxDepth c (-1)) root [] 0).map (Row.text c pfx)) ∧
    ((treeRows (withMaxDepth c D) root [] 0).map (Row.text c pfx)).Sublist
      ((treeRows (withMaxDepth c (D + 1 : Nat)) root [] 0).map (Row.text c pfx)) ∧
    ((treeRows (withMaxDepth c D) root [] 0).map (Row.text c pfx)).Sublist
      ((treeRows (withMaxDepth c (-1)) root [] 0).map (Row.text c pfx)) :=
  ⟨generateTree_eq_rows_root _ _ _ _, generateTree_eq_rows_root _ _ _ _,
    generateTree_eq_rows_root _ _ _ _, (treeRows_sublist_succ c root D).map _,
    (treeRows_sublist_unbounded c root D).map _⟩

/-! ## C19: color -/

/-- The configuration with another `-color`. -/
def withColor (c : Config) (useColor : Bool) : Config :=
  { c with useColor := useColor }

/-- The shown rows do not depend on the color flag. -/
theorem treeRows_withColor (c : Config) (useColor : Bool) (path : Node) :
    ∀ (ancestors : List Bool) (depth : Int),
      treeRows (withColor c useColor) path ancestors depth =
        treeRows c path ancestors depth := by
  induction path using Node.induction with
  | hfile name =>
    intro ancestors depth
    rw [treeRows_eq, treeRows_eq]
    rfl
  | hdir name readErr entries ih =>
    intro ancestors depth
    rw [treeRows_eq, treeRows_eq]
    have hm : (withColor c useColor).maxDepth = c.maxDepth := rfl
    have hr : readSortedEntries (withColor c useColor) (.dir name readErr entries) =
        readSortedEntries c (.dir name readErr entries) := rfl
    rw [hm, hr]
    split
    · rfl
    · have hsub : ∀ e ∈ readSortedEntries c (.dir name readErr entries), e ∈ entries :=
        fun e he => mem_of_mem_readSortedEntries he
      generalize readSortedEntries c (.dir name readErr entries) = l at hsub
      induction l with
      | nil => rfl
      | cons e es ihl =>
        simp only [groupRows]
        rw [ihl (fun x hx => hsub x (List.mem_cons_of_mem _ hx)),
          ih e (hsub e (List.mem_cons_self _ _))]

/-- C19: the color-enabled and the color-disabled output are the lines of the
same rows, so they have the same number of lines; the line of a file is the
same in both, the line of a directory differs only in the name being wrapped as
`ESC[0;34m` name `ESC[0m`, and when no directory is shown the two outputs are
equal. -/
theorem color_is_decoration (c : Config) (root : Node) (pfx : String) (depth : Int) :
    generateTree (withColor c true) root pfx depth =
      String.join ((treeRows c root [] depth).map (Row.text (withColor c true) pfx)) ∧
    generateTree (withColor c false) root pfx depth =
      String.join ((treeRows c root [] depth).map (Row.text (withColor c false) pfx)) ∧
    ((treeRows c root [] depth).map (Row.text (withColor c true) pfx)).length =
      ((treeRows c root [] depth).map (Row.text (withColor c false) pfx)).length ∧
    (∀ r : Row, Row.text (withColor c false) pfx r =
      pfx ++ prefixText r.ancestors ++ connector r.isLast ++ r.entry.Name ++ "\n") ∧
    (∀ r : Row, r.entry.IsDir = false →
      Row.text (withColor c true) pfx r = Row.text (withColor c false) pfx r) ∧
    (∀ r : Row, r.entry.IsDir = true →
      Row.text (withColor c true) pfx r =
        pfx ++ prefixText r.ancestors ++ connector r.isLast ++
          ("\x1b[0;34m" ++ r.entry.Name ++ "\x1b[0m") ++ "\n") ∧
    ((∀ r ∈ treeRows c root [] depth, r.entry.IsDir = false) →
      generateTree (withColor c true) root pfx depth =
        generateTree (withColor c false) root pfx depth) := by
  have h1 : generateTree (withColor c true) root pfx depth =
      String.join ((treeRows c root [] depth).map (Row.text (withColor c true) pfx)) := by
    rw [generateTree_eq_rows_root, treeRows_withColor]
  have h2 : generateTree (withColor c false) root pfx depth =
      String.join ((treeRows c root [] depth).map (Row.text (withColor c false) pfx)) := by
    rw [generateTree_eq_rows_root, treeRows_withColor]
  have hfile : ∀ r : Row, r.entry.IsDir = false →
      Row.text (withColor c true) pfx r = Row.text (withColor c false) pfx r := by
    intro r hr
    simp [Row.text, displayName, hr]
  refine ⟨h1, h2, by simp, ?_, hfile, ?_, ?_⟩
  · intro r
    simp [Row.text, displayName, withColor]
  · intro r hr
    simp [Row.text, displayName, withColor, hr, colorBlue, colorNone]
  · intro h
    rw [h1, h2]
    congr 1
    apply List.map_congr_left
    intro r hr
    exact hfile r (h r hr)

theorem color_is_decoration_witness :
    generateTree (withColor (initializeExclusions (setupFlags (-1) false [] [])) true)
        (.dir "root" false [.file "z.txt", .file "a.txt"]) "" 0 =
      generateTree (withColor (initializeExclusions (setupFlags (-1) false [] [])) false)
        (.dir "root" false [.file "z.txt", .file "a.txt"]) "" 0 := by
  apply (color_is_decoration _ _ "" 0).2.2.2.2.2.2
  intro r hr
  simp [treeRows_eq, groupRows, readSortedEntries, osReadDir, sortEntries,
    sortSlice, insertSorted, entryLess, filterEntries_eq_filter, keeps, shouldExclude,
    initializeExclusions, setupFlags, defaultDirs, defaultFiles, Node.Name, Node.IsDir] at hr
  rcases hr with rfl | rfl <;> rfl

/-! ## C20: the first and the last line -/

theorem groupRows_ne_nil (c : Config) (ancestors : List Bool) (depth : Int) (e : Node)
    (es : List Node) : groupRows c ancestors depth (e :: es) ≠ [] := by
  simp [groupRows]

/-- The first row of a call has the ancestors of the call. -/
theorem treeRows_head (c : Config) (path : Node) (ancestors : List Bool) (depth : Int)
    (r : Row) (rest : List Row) (h : treeRows c path ancestors depth = r :: rest) :
    r.ancestors = ancestors := by
  rw [treeRows_eq] at h
  split at h
  · simp at h
  · cases hl : readSortedEntries c path with
    | nil => simp [hl, groupRows] at h
    | cons e es =>
      rw [hl] at h
      simp only [groupRows, List.cons_append, List.cons.injEq] at h
      rw [← h.1]

/-- The last row of a call is a last sibling below last siblings only. -/
theorem treeRows_last (c : Config) (path : Node) :
    ∀ (ancestors : List Bool) (depth : Int), treeRows c path ancestors depth ≠ [] →
      ∃ init last k, treeRows c path ancestors depth = init ++ [last] ∧
        last.isLast = true ∧ last.ancestors = ancestors ++ List.replicate k true := by
  induction path using Node.induction with
  | hfile name =>
    intro ancestors depth h
    rw [treeRows_eq, readSortedEntries_file] at h
    simp [groupRows] at h
  | hdir name readErr entries ih =>
    intro ancestors depth h
    rw [treeRows_eq] at h ⊢
    split at h
    · exact absurd rfl h
    · rename_i hb
      rw [if_neg hb]
      have hsub : ∀ e ∈ readSortedEntries c (.dir name readErr entries), e ∈ entries :=
        fun e he => mem_of_mem_readSortedEntries he
      generalize readSortedEntries c (.dir name readErr entries) = l at hsub h
      induction l with
      | nil => exact absurd rfl h
      | cons e es ihl =>
        cases es with
        | cons e₂ rest =>
          obtain ⟨init, last, k, h1, h2, h3⟩ :=
            ihl (fun x hx => hsub x (List.mem_cons_of_mem _ hx)) (groupRows_ne_nil _ _ _ _ _)
          refine ⟨(Row.mk depth ancestors e false ::
            if e.IsDir then treeRows c e (ancestors ++ [false]) (depth + 1) else []) ++ init,
            last, k, ?_, h2, h3⟩
          rw [groupRows, h1]
          simp
        | nil =>
          by_cases hsubrows : (if e.IsDir then
              treeRows c e (ancestors ++ [true]) (depth + 1) else []) = []
          · refine ⟨[], Row.mk depth ancestors e true, 0, ?_, rfl, by simp⟩
            simp only [groupRows, List.isEmpty_nil, hsubrows]
            rfl
          · have hd : e.IsDir = true := by
              cases hd : e.IsDir
              · simp [hd] at hsubrows
              · rfl
            simp only [hd, if_true] at hsubrows
            obtain ⟨init, last, k, h1, h2, h3⟩ :=
              ih e (hsub e (List.mem_cons_self _ _)) (ancestors ++ [true]) (depth + 1) hsubrows
            refine ⟨Row.mk depth ancestors e true :: init, last, k + 1, ?_, h2, ?_⟩
            · simp only [groupRows, List.isEmpty_nil, hd, if_true, h1]
              simp
            · rw [h3, List.replicate_succ]
              simp

theorem prefixText_replicate_true (k : Nat) :
    prefixText (List.replicate k true) = String.join (List.replicate k "    ") := by
  simp [prefixText, segment]

/-- C20: when `generateTree root "" 0` is not empty, its first line starts
directly with a connector, and its last line is some number of four-space
segments followed by `└── ` and the name: the last line has no `│   ` segment
and never the connector `├── `. -/
theorem last_line_closed (c : Config) (root : Node) (h : generateTree c root "" 0 ≠ "") :
    ∃ (first : Row) (rest init : List Row) (last : Row) (k : Nat),
      treeRows c root [] 0 = first :: rest ∧
      treeRows c root [] 0 = init ++ [last] ∧
      generateTree c root "" 0 =
        Row.text c "" first ++ String.join (rest.map (Row.text c "")) ∧
      generateTree c root "" 0 =
        String.join (init.map (Row.text c "")) ++ Row.text c "" last ∧
      Row.text c "" first =
        (if first.isLast then "└── " else "├── ") ++ displayName c first.entry ++ "\n" ∧
      Row.text c "" last =
        String.join (List.replicate k "    ") ++ "└── " ++ displayName c last.entry ++ "\n" := by
  have hrows := generateTree_eq_rows_root c root "" 0
  have hne : treeRows c root [] 0 ≠ [] := by
    intro h0
    rw [h0] at hrows
    exact h hrows
  obtain ⟨init, last, k, h1, h2, h3⟩ := treeRows_last c root [] 0 hne
  cases hfirst : treeRows c root [] 0 with
  | nil => exact absurd hfirst hne
  | cons first rest =>
    have ha := treeRows_head c root [] 0 first rest hfirst
    refine ⟨first, rest, init, last, k, rfl, ?_, ?_, ?_, ?_, ?_⟩
    · rw [← hfirst, h1]
    · rw [hrows, hfirst, List.map_cons, join_cons]
    · rw [hrows, h1, List.map_append, join_append]
      simp [join_cons, join_nil, append_empty]
    · simp only [Row.text, ha, prefixText, List.map_nil, join_nil, empty_append, connector]
    · simp only [Row.text, h3, h2, List.nil_append, prefixText_replicate_true, empty_append,
        connector, if_true]

theorem last_line_closed_witness :
    ∃ (first : Row) (rest init : List Row) (last : Row) (k : Nat),
      treeRows (initializeExclusions (setupFlags (-1) false [] []))
        (.dir "root" false [.file "z.txt", .dir "a" false [.file "x.txt"]]) [] 0 =
          first :: rest ∧
      treeRows (initializeExclusions (setupFlags (-1) false [] []))
        (.dir "root" false [.file "z.txt", .dir "a" false [.file "x.txt"]]) [] 0 =
          init ++ [last] ∧
      Row.text (initializeExclusions (setupFlags (-1) false [] [])) "" last =
        String.join (List.replicate k "    ") ++ "└── " ++
          displayName (initializeExclusions (setupFlags (-1) false [] [])) last.entry ++ "\n" := by
  have hne : generateTree (initializeExclusions (setupFlags (-1) false [] []))
      (.dir "root" false [.file "z.txt", .dir "a" false [.file "x.txt"]]) "" 0 ≠ "" := by
    simp [generateTree_eq, renderGroup, entryBlock, readSortedEntries, osReadDir, sortEntries,
      sortSlice, insertSorted, entryLess, filterEntries_eq_filter, keeps, shouldExclude,
      initializeExclusions, setupFlags, defaultDirs, defaultFiles, printEntry,
      getNextPrefix, Node.Name, Node.IsDir]
  obtain ⟨first, rest, init, last, k, h1, h2, _, _, _, h6⟩ := last_line_closed _ _ hne
  exact ⟨first, rest, init, last, k, h1, h2, h6⟩

end Directree
